import Mathlib

/-!
Verification development for the encrypted semantic memory subsystem of the
Project Harmony application (sources: `services/securityUtils.ts`,
`services/vectorDbService.ts`, `services/geminiService.ts`,
`components/ChatInterface.tsx`, `types.ts`).

The TypeScript sources are shallowly embedded:

* the two PII regexes of `redactPII` are embedded as executable
  backtracking matchers over `List Char`, and the global
  `String.replace(/…/g, token)` as a left-to-right scanner;
* `btoa`/`atob` (the storage base64 layer of `encryptData`/`decryptData`)
  are implemented concretely over bytes (`Fin 256`);
* the AEAD primitive (`window.crypto.subtle`) and the UTF-8 text codec
  (`TextEncoder`/`TextDecoder`) are external platform collaborators and are
  modelled as structures carrying their inverse laws;
* IndexedDB object stores are modelled by their specified behaviour:
  records live sorted by key (ascending), `add` fails on a duplicate key,
  `getAll` returns the records in key order;
* `Math.sqrt` is floating point and is passed to the similarity code as an
  explicit function parameter; concrete instantiations use exact square
  roots on the vectors involved.
-/

namespace Harmony

/-! ### Character classes of the two regexes in `redactPII`
(`securityUtils.ts` lines 87-93).

Email regex: `[a-zA-Z0-9._%+-]+@[a-zA-Z0-9.-]+\.[a-zA-Z]{2,}`
Phone regex: `(\+\d{1,2}\s?)?\(?\d{3}\)?[\s.-]?\d{3}[\s.-]?\d{4}`
-/

/-- `[a-zA-Z]` as in the JS regex (ASCII letters only). -/
def isAsciiLetter (c : Char) : Bool :=
  ('a' ≤ c && c ≤ 'z') || ('A' ≤ c && c ≤ 'Z')

/-- `[0-9]`, JS `\d`. -/
def isDigitChar (c : Char) : Bool := '0' ≤ c && c ≤ '9'

/-- `[a-zA-Z0-9._%+-]`, the local part class of the email regex. -/
def isEmailLocalChar (c : Char) : Bool :=
  isAsciiLetter c || isDigitChar c || c == '.' || c == '_' || c == '%' || c == '+' || c == '-'

/-- `[a-zA-Z0-9.-]`, the domain class of the email regex. -/
def isEmailDomainChar (c : Char) : Bool :=
  isAsciiLetter c || isDigitChar c || c == '.' || c == '-'

/-- JS `\s` (WhiteSpace ∪ LineTerminator code points). -/
def isJsSpace (c : Char) : Bool :=
  c == ' ' || c == '\t' || c == '\n' || c == '\r' ||
  c == '\x0b' || c == '\x0c' || c == '\u00A0' || c == '\u1680' ||
  ('\u2000' ≤ c && c ≤ '\u200A') || c == '\u2028' || c == '\u2029' ||
  c == '\u202F' || c == '\u205F' || c == '\u3000' || c == '\uFEFF'

/-- The separator class `[\s.-]` of the phone regex. -/
def isPhoneSep (c : Char) : Bool := isJsSpace c || c == '.' || c == '-'

/-! ### Email matcher

Anchored match of `[a-zA-Z0-9._%+-]+@[a-zA-Z0-9.-]+\.[a-zA-Z]{2,}` at the
head of the input, returning the number of characters consumed under JS
backtracking semantics.  The leading `+` needs no backtracking search: `@`
is not in the local class, so the greedy maximal run is the only candidate.
The domain part does backtrack: the greedy `[a-zA-Z0-9.-]+` is retried from
its maximal run length downwards; the trailing `[a-zA-Z]{2,}` is greedy and
final, so it takes the maximal letter run. -/

/-- Try `\.[a-zA-Z]{2,}` after `n` domain characters of `t`
(callers only pass `n` at most the length of the maximal domain run). -/
def checkDot (n : Nat) (t : List Char) : Option Nat :=
  match t.drop n with
  | [] => none
  | c :: u =>
    if c = '.' then
      if 2 ≤ (u.takeWhile isAsciiLetter).length then
        some (n + 1 + (u.takeWhile isAsciiLetter).length)
      else none
    else none

/-- Backtracking search for the domain split, trying the greedy (largest)
domain-run length first. -/
def emailTailAux : Nat → List Char → Option Nat
  | 0, _ => none
  | n + 1, t =>
    match checkDot (n + 1) t with
    | some k => some k
    | none => emailTailAux n t

/-- Match `[a-zA-Z0-9.-]+\.[a-zA-Z]{2,}` at the head of `t`. -/
def emailTail (t : List Char) : Option Nat :=
  emailTailAux (t.takeWhile isEmailDomainChar).length t

/-- Match the whole email regex at the head of `s`. -/
def emailMatchAt (s : List Char) : Option Nat :=
  if (s.takeWhile isEmailLocalChar).length = 0 then none
  else
    match s.dropWhile isEmailLocalChar with
    | [] => none
    | c :: t =>
      if c = '@' then (emailTail t).map (fun k => (s.takeWhile isEmailLocalChar).length + 1 + k)
      else none

/-! ### Phone matcher

Anchored match of `(\+\d{1,2}\s?)?\(?\d{3}\)?[\s.-]?\d{3}[\s.-]?\d{4}`,
written in continuation style: each greedy optional piece first tries to
consume and run the continuation, then falls back to not consuming, which
is exactly the JS backtracking order. -/

/-- Greedy `X?` for a single-character class `X`. -/
def optChar (p : Char → Bool) (k : List Char → Option Nat) : List Char → Option Nat
  | [] => k []
  | c :: rest =>
    if p c then ((k rest).map (· + 1)) <|> k (c :: rest)
    else k (c :: rest)

/-- Exactly `n` characters of class `p`, then the continuation. -/
def charsN (p : Char → Bool) : Nat → (List Char → Option Nat) → List Char → Option Nat
  | 0, k, s => k s
  | _ + 1, _, [] => none
  | n + 1, k, c :: rest =>
    if p c then (charsN p n k rest).map (· + 1) else none

/-- The greedy optional group `(\+\d{1,2}\s?)?`: a literal `+`, then one or
two digits (two preferred), then an optional `\s`. -/
def phoneGroup (k : List Char → Option Nat) : List Char → Option Nat
  | [] => k []
  | c :: rest =>
    if c = '+' then
      (((charsN isDigitChar 2 (optChar isJsSpace k) rest) <|>
        (charsN isDigitChar 1 (optChar isJsSpace k) rest)).map (· + 1)) <|> k (c :: rest)
    else k (c :: rest)

/-- Match the whole phone regex at the head of `s`. -/
def phoneMatchAt : List Char → Option Nat :=
  phoneGroup (optChar (· == '(')
    (charsN isDigitChar 3 (optChar (· == ')')
      (optChar isPhoneSep (charsN isDigitChar 3
        (optChar isPhoneSep (charsN isDigitChar 4 (fun _ => some 0))))))))

/-! ### Global replacement

`text.replace(/re/g, token)` scans left to right; at each position it tries
the anchored matcher, emits the token and skips the match on success, and
otherwise copies one character.  Neither regex can match the empty string
(both contain mandatory character classes), so the scanner only has to
handle matches of positive length (positivity is proved for both matchers).
Written with an explicit fuel argument (the initial length) so that it is
structural and evaluates inside the kernel. -/

def replaceScanAux (m : List Char → Option Nat) (tok : List Char) :
    Nat → List Char → List Char
  | 0, s => s
  | _ + 1, [] => []
  | fuel + 1, c :: rest =>
    match m (c :: rest) with
    | some (k + 1) => tok ++ replaceScanAux m tok fuel (rest.drop k)
    | _ => c :: replaceScanAux m tok fuel rest

def replaceScan (m : List Char → Option Nat) (tok : List Char) (s : List Char) : List Char :=
  replaceScanAux m tok s.length s

def emailToken : List Char := "[EMAIL_REDACTED]".toList

def phoneToken : List Char := "[PHONE_REDACTED]".toList

/-- First replacement pass of `redactPII` (emails). -/
def redactEmailsL (s : List Char) : List Char := replaceScan emailMatchAt emailToken s

/-- Second replacement pass of `redactPII` (phone numbers). -/
def redactPhonesL (s : List Char) : List Char := replaceScan phoneMatchAt phoneToken s

/-- `redactPII` from `securityUtils.ts`: emails first, then phone numbers. -/
def redactPIIL (s : List Char) : List Char := redactPhonesL (redactEmailsL s)

/-- String-level `redactPII`. -/
def redactPII (s : String) : String := ⟨redactPIIL s.data⟩


/-! ### List helpers -/

theorem takeWhile_len_le (p : Char → Bool) : ∀ l : List Char, (l.takeWhile p).length ≤ l.length
  | [] => Nat.le_refl _
  | c :: l => by
    cases h : p c
    · simp [List.takeWhile_cons, h]
    · simp only [List.takeWhile_cons, h, if_true, List.length_cons]
      exact Nat.succ_le_succ (takeWhile_len_le p l)

theorem takeWhile_append_stop {p : Char → Bool} {c : Char} (hc : p c = false) :
    ∀ (u w : List Char), ((u ++ c :: w).takeWhile p) = u.takeWhile p
  | [], w => by simp [List.takeWhile_cons, hc]
  | a :: u, w => by
    cases h : p a
    · simp [List.takeWhile_cons, h]
    · simp only [List.cons_append, List.takeWhile_cons, h, if_true]
      rw [takeWhile_append_stop hc u w]

theorem dropWhile_append_stop {p : Char → Bool} {c : Char} (hc : p c = false) :
    ∀ (u w : List Char), ((u ++ c :: w).dropWhile p) = u.dropWhile p ++ c :: w
  | [], w => by simp [List.dropWhile_cons, hc]
  | a :: u, w => by
    cases h : p a
    · simp [List.dropWhile_cons, h]
    · simp only [List.cons_append, List.dropWhile_cons, h, if_true]
      exact dropWhile_append_stop hc u w

theorem takeWhile_append_of_ex {p : Char → Bool} :
    ∀ {u : List Char}, (∃ x ∈ u, p x = false) → ∀ (w : List Char),
      ((u ++ w).takeWhile p) = u.takeWhile p
  | [], h, _ => absurd h (by simp)
  | a :: u, h, w => by
    cases ha : p a
    · simp [List.takeWhile_cons, ha]
    · simp only [List.cons_append, List.takeWhile_cons, ha, if_true]
      have hu : ∃ x ∈ u, p x = false := by
        rcases h with ⟨x, hx, hpx⟩
        rcases List.mem_cons.1 hx with rfl | hx
        · rw [ha] at hpx; cases hpx
        · exact ⟨x, hx, hpx⟩
      rw [takeWhile_append_of_ex hu w]

theorem dropWhile_append_of_ex {p : Char → Bool} :
    ∀ {u : List Char}, (∃ x ∈ u, p x = false) → ∀ (w : List Char),
      ((u ++ w).dropWhile p) = u.dropWhile p ++ w
  | [], h, _ => absurd h (by simp)
  | a :: u, h, w => by
    cases ha : p a
    · simp [List.dropWhile_cons, ha]
    · simp only [List.cons_append, List.dropWhile_cons, ha, if_true]
      have hu : ∃ x ∈ u, p x = false := by
        rcases h with ⟨x, hx, hpx⟩
        rcases List.mem_cons.1 hx with rfl | hx
        · rw [ha] at hpx; cases hpx
        · exact ⟨x, hx, hpx⟩
      exact dropWhile_append_of_ex hu w

theorem takeWhile_len_le_append (p : Char → Bool) :
    ∀ (u w : List Char), (u.takeWhile p).length ≤ ((u ++ w).takeWhile p).length
  | [], _ => Nat.zero_le _
  | a :: u, w => by
    cases ha : p a
    · simp [List.takeWhile_cons, ha]
    · simp only [List.cons_append, List.takeWhile_cons, ha, if_true, List.length_cons]
      exact Nat.succ_le_succ (takeWhile_len_le_append p u w)

theorem dropWhile_ne_nil_of_ex {p : Char → Bool} :
    ∀ {u : List Char}, (∃ x ∈ u, p x = false) → u.dropWhile p ≠ []
  | [], h => absurd h (by simp)
  | a :: u, h => by
    cases ha : p a
    · simp [List.dropWhile_cons, ha]
    · simp only [List.dropWhile_cons, ha, if_true]
      have hu : ∃ x ∈ u, p x = false := by
        rcases h with ⟨x, hx, hpx⟩
        rcases List.mem_cons.1 hx with rfl | hx
        · rw [ha] at hpx; cases hpx
        · exact ⟨x, hx, hpx⟩
      exact dropWhile_ne_nil_of_ex hu

theorem orElse_isSome {a b : Option Nat} : (a <|> b).isSome ↔ a.isSome ∨ b.isSome := by
  cases a <;> simp [Option.orElse]

theorem orElse_eq_some {a b : Option Nat} {j : Nat} :
    (a <|> b) = some j ↔ a = some j ∨ (a = none ∧ b = some j) := by
  cases a <;> simp [Option.orElse]

/-! ### Email matcher metatheory -/

theorem emailMatchAt_nil : emailMatchAt [] = none := rfl

theorem emailMatchAt_pos {s : List Char} {k : Nat} (h : emailMatchAt s = some k) : 0 < k := by
  unfold emailMatchAt at h
  split at h
  · cases h
  · split at h
    · cases h
    · split at h
      · rcases Option.map_eq_some'.1 h with ⟨k0, _, rfl⟩
        omega
      · cases h

/-- A successful email match implies an `@` in the input. -/
theorem emailMatchAt_mem_at {s : List Char} {k : Nat} (h : emailMatchAt s = some k) :
    '@' ∈ s := by
  unfold emailMatchAt at h
  split at h
  · cases h
  · rename_i hloc
    split at h
    · cases h
    · rename_i c t heq
      split at h
      · rename_i hc
        subst hc
        have : '@' ∈ s.dropWhile isEmailLocalChar := by rw [heq]; exact List.mem_cons_self _ _
        exact (List.dropWhile_suffix isEmailLocalChar).mem this
      · cases h

/-- The matcher ignores everything after a `[` (which no sub-pattern of the
email regex can consume): `checkDot` version. -/
theorem checkDot_bar {n : Nat} {t w : List Char} (hn : n ≤ t.length) :
    checkDot n (t ++ '[' :: w) = checkDot n t := by
  unfold checkDot
  rw [List.drop_append_of_le_length hn]
  cases hdrop : t.drop n with
  | nil => rfl
  | cons c u =>
    by_cases hc : c = '.'
    · subst hc
      simp only [List.cons_append, if_pos rfl]
      rw [takeWhile_append_stop (by decide) u w]
    · simp [hc]


theorem checkDot_eq_nil {n : Nat} {t : List Char} (h : t.drop n = []) :
    checkDot n t = none := by
  unfold checkDot; rw [h]

theorem checkDot_eq_cons {n : Nat} {t : List Char} {c : Char} {u : List Char}
    (h : t.drop n = c :: u) :
    checkDot n t =
      if c = '.' then
        if 2 ≤ (u.takeWhile isAsciiLetter).length then
          some (n + 1 + (u.takeWhile isAsciiLetter).length)
        else none
      else none := by
  unfold checkDot; rw [h]

theorem emailMatchAt_eq_zero {s : List Char} (h : (s.takeWhile isEmailLocalChar).length = 0) :
    emailMatchAt s = none := by
  unfold emailMatchAt; rw [if_pos h]

theorem emailMatchAt_eq_nil {s : List Char} (h : s.dropWhile isEmailLocalChar = []) :
    emailMatchAt s = none := by
  unfold emailMatchAt
  rw [h]
  split <;> rfl

theorem emailMatchAt_eq_cons {s : List Char} {c : Char} {t : List Char}
    (h0 : (s.takeWhile isEmailLocalChar).length ≠ 0)
    (h : s.dropWhile isEmailLocalChar = c :: t) :
    emailMatchAt s =
      if c = '@' then
        (emailTail t).map (fun k => (s.takeWhile isEmailLocalChar).length + 1 + k)
      else none := by
  unfold emailMatchAt; rw [if_neg h0, h]

theorem emailTailAux_bar {w : List Char} :
    ∀ (fuel : Nat) (t : List Char), fuel ≤ t.length →
      emailTailAux fuel (t ++ '[' :: w) = emailTailAux fuel t
  | 0, _, _ => rfl
  | n + 1, t, h => by
    unfold emailTailAux
    rw [checkDot_bar h]
    cases checkDot (n + 1) t with
    | some k => rfl
    | none => exact emailTailAux_bar n t (Nat.le_of_succ_le h)

theorem emailTail_bar (t w : List Char) : emailTail (t ++ '[' :: w) = emailTail t := by
  unfold emailTail
  rw [takeWhile_append_stop (by decide) t w]
  exact emailTailAux_bar _ t (takeWhile_len_le _ t)

/-- The email matcher never looks past a `[`: what follows it is irrelevant. -/
theorem emailMatchAt_bar (u w : List Char) :
    emailMatchAt (u ++ '[' :: w) = emailMatchAt u := by
  unfold emailMatchAt
  rw [takeWhile_append_stop (by decide) u w, dropWhile_append_stop (by decide) u w]
  cases hdw : u.dropWhile isEmailLocalChar with
  | nil =>
    simp only [List.nil_append]
    split
    · rfl
    · rfl
  | cons c t =>
    simp only [List.cons_append]
    split
    · rfl
    · by_cases hc : c = '@'
      · subst hc
        simp only [if_pos rfl]
        rw [emailTail_bar]
      · simp [hc]

theorem checkDot_mono {n k : Nat} {t : List Char} (h : checkDot n t = some k) (w : List Char) :
    ∃ j, checkDot n (t ++ w) = some j := by
  cases hdrop : t.drop n with
  | nil => rw [checkDot_eq_nil hdrop] at h; cases h
  | cons c u =>
    rw [checkDot_eq_cons hdrop] at h
    have hn : n ≤ t.length := by
      have hlen := List.length_drop n t
      rw [hdrop] at hlen
      simp only [List.length_cons] at hlen
      omega
    have hdrop2 : (t ++ w).drop n = c :: (u ++ w) := by
      rw [List.drop_append_of_le_length hn, hdrop]; rfl
    rw [checkDot_eq_cons hdrop2]
    by_cases hc : c = '.'
    · subst hc
      rw [if_pos rfl] at h ⊢
      split at h
      · rename_i h2
        exact ⟨_, if_pos (Nat.le_trans h2 (takeWhile_len_le_append _ u w))⟩
      · cases h
    · rw [if_neg hc] at h; cases h

theorem emailTailAux_some_ex :
    ∀ {fuel : Nat} {t : List Char} {k : Nat}, emailTailAux fuel t = some k →
      ∃ n, 1 ≤ n ∧ n ≤ fuel ∧ checkDot n t = some k
  | 0, _, _, h => by cases h
  | fuel + 1, t, k, h => by
    unfold emailTailAux at h
    cases hcd : checkDot (fuel + 1) t with
    | some j =>
      rw [hcd] at h
      cases h
      exact ⟨fuel + 1, Nat.succ_le_succ (Nat.zero_le _), Nat.le_refl _, hcd⟩
    | none =>
      rw [hcd] at h
      rcases emailTailAux_some_ex h with ⟨n, h1, h2, h3⟩
      exact ⟨n, h1, Nat.le_succ_of_le h2, h3⟩

theorem emailTailAux_some_of_checkDot :
    ∀ {fuel n : Nat} {t : List Char} {k : Nat}, n ≤ fuel → 1 ≤ n → checkDot n t = some k →
      (emailTailAux fuel t).isSome
  | 0, n, _, _, hle, h1, _ => absurd (Nat.le_trans h1 hle) (by omega)
  | fuel + 1, n, t, k, hle, h1, hcd => by
    unfold emailTailAux
    cases hc : checkDot (fuel + 1) t with
    | some j => rfl
    | none =>
      have hn : n ≤ fuel := by
        rcases Nat.lt_or_ge n (fuel + 1) with h | h
        · omega
        · have : n = fuel + 1 := Nat.le_antisymm hle h
          subst this
          rw [hc] at hcd; cases hcd
      exact emailTailAux_some_of_checkDot hn h1 hcd

theorem emailTail_mono {t : List Char} {k : Nat} (h : emailTail t = some k) (w : List Char) :
    (emailTail (t ++ w)).isSome := by
  unfold emailTail at h ⊢
  rcases emailTailAux_some_ex h with ⟨n, h1, h2, h3⟩
  rcases checkDot_mono h3 w with ⟨j, hj⟩
  exact emailTailAux_some_of_checkDot
    (Nat.le_trans h2 (takeWhile_len_le_append _ t w)) h1 hj

/-- Extension monotonicity: an email match survives appending more input. -/
theorem emailMatchAt_mono {u : List Char} {k : Nat} (h : emailMatchAt u = some k)
    (w : List Char) : (emailMatchAt (u ++ w)).isSome := by
  by_cases hloc : (u.takeWhile isEmailLocalChar).length = 0
  · rw [emailMatchAt_eq_zero hloc] at h; cases h
  · cases hdw : u.dropWhile isEmailLocalChar with
    | nil => rw [emailMatchAt_eq_nil hdw] at h; cases h
    | cons c t =>
      rw [emailMatchAt_eq_cons hloc hdw] at h
      by_cases hc : c = '@'
      · subst hc
        rw [if_pos rfl] at h
        have hex : ∃ x ∈ u, isEmailLocalChar x = false := by
          refine ⟨'@', ?_, by decide⟩
          have hm : '@' ∈ u.dropWhile isEmailLocalChar := by
            rw [hdw]; exact List.mem_cons_self _ _
          exact (List.dropWhile_suffix isEmailLocalChar).mem hm
        have hloc2 : ((u ++ w).takeWhile isEmailLocalChar).length ≠ 0 := by
          rw [takeWhile_append_of_ex hex w]; exact hloc
        have hdw2 : (u ++ w).dropWhile isEmailLocalChar = '@' :: (t ++ w) := by
          rw [dropWhile_append_of_ex hex w, hdw]; rfl
        rw [emailMatchAt_eq_cons hloc2 hdw2, if_pos rfl]
        rcases Option.map_eq_some'.1 h with ⟨k0, hk0, _⟩
        rcases Option.isSome_iff_exists.1 (emailTail_mono hk0 w) with ⟨j, hj⟩
        rw [hj]
        rfl
      · rw [if_neg hc] at h; cases h

/-- Generic blocking: if `σ` contains a non-local character and no `@`, no
email match can start at the head of `σ ++ r`. -/
theorem emailMatchAt_block {σ : List Char} (h1 : ∃ x ∈ σ, isEmailLocalChar x = false)
    (h2 : '@' ∉ σ) (r : List Char) : emailMatchAt (σ ++ r) = none := by
  unfold emailMatchAt
  rw [takeWhile_append_of_ex h1 r, dropWhile_append_of_ex h1 r]
  split
  · rfl
  · cases hdw : σ.dropWhile isEmailLocalChar with
    | nil => exact absurd hdw (dropWhile_ne_nil_of_ex h1)
    | cons c t =>
      simp only [List.cons_append]
      have hcm : c ∈ σ := by
        have : c ∈ σ.dropWhile isEmailLocalChar := by rw [hdw]; exact List.mem_cons_self _ _
        exact (List.dropWhile_suffix isEmailLocalChar).mem this
      have hc : c ≠ '@' := fun heq => h2 (heq ▸ hcm)
      rw [if_neg hc]


/-! ### Phone matcher metatheory

The phone matcher is built from three combinators, so its properties are
proved compositionally, as closure properties of the continuation:
`KBar` (nothing after a `[` is ever examined), `KMono` (a match survives
appending input) and `KLB` (a lower bound on the consumed length). -/

theorem optChar_nil (p : Char → Bool) (k : List Char → Option Nat) : optChar p k [] = k [] := rfl

theorem optChar_cons (p : Char → Bool) (k : List Char → Option Nat) (c : Char) (rest : List Char) :
    optChar p k (c :: rest) =
      if p c then ((k rest).map (· + 1)) <|> k (c :: rest) else k (c :: rest) := rfl

theorem charsN_zero (p : Char → Bool) (k : List Char → Option Nat) (s : List Char) :
    charsN p 0 k s = k s := rfl

theorem charsN_succ_nil (p : Char → Bool) (n : Nat) (k : List Char → Option Nat) :
    charsN p (n + 1) k [] = none := rfl

theorem charsN_succ_cons (p : Char → Bool) (n : Nat) (k : List Char → Option Nat) (c : Char)
    (rest : List Char) :
    charsN p (n + 1) k (c :: rest) =
      if p c then (charsN p n k rest).map (· + 1) else none := rfl

theorem phoneGroup_nil (k : List Char → Option Nat) : phoneGroup k [] = k [] := rfl

theorem phoneGroup_cons (k : List Char → Option Nat) (c : Char) (rest : List Char) :
    phoneGroup k (c :: rest) =
      if c = '+' then
        (((charsN isDigitChar 2 (optChar isJsSpace k) rest) <|>
          (charsN isDigitChar 1 (optChar isJsSpace k) rest)).map (· + 1)) <|> k (c :: rest)
      else k (c :: rest) := rfl

theorem map_isSome {o : Option Nat} {f : Nat → Nat} : (o.map f).isSome = o.isSome := by
  cases o <;> rfl

/-- The continuation never examines anything following a `[`. -/
def KBar (k : List Char → Option Nat) : Prop := ∀ u w, k (u ++ '[' :: w) = k u

/-- A successful continuation survives appending further input. -/
def KMono (k : List Char → Option Nat) : Prop := ∀ u w, (k u).isSome → (k (u ++ w)).isSome

/-- The continuation consumes at least `c` characters. -/
def KLB (c : Nat) (k : List Char → Option Nat) : Prop := ∀ s j, k s = some j → c ≤ j

theorem kbar_done : KBar (fun _ => some 0) := fun _ _ => rfl

theorem kmono_done : KMono (fun _ => some 0) := fun _ _ _ => rfl

theorem klb_done : KLB 0 (fun _ => some 0) := fun _ _ _ => Nat.zero_le _

theorem kbar_optChar {p : Char → Bool} {k : List Char → Option Nat} (hp : p '[' = false)
    (hk : KBar k) : KBar (optChar p k) := by
  intro u w
  cases u with
  | nil =>
    show optChar p k ('[' :: w) = optChar p k []
    rw [optChar_cons, optChar_nil]
    rw [if_neg (by simp [hp])]
    exact hk [] w
  | cons c u =>
    show optChar p k (c :: (u ++ '[' :: w)) = optChar p k (c :: u)
    rw [optChar_cons, optChar_cons]
    have h2 : k (c :: (u ++ '[' :: w)) = k (c :: u) := hk (c :: u) w
    by_cases hc : p c = true
    · rw [if_pos hc, if_pos hc, hk u w, h2]
    · rw [if_neg hc, if_neg hc]
      exact h2

theorem kmono_optChar {p : Char → Bool} {k : List Char → Option Nat} (hk : KMono k) :
    KMono (optChar p k) := by
  intro u w h
  cases u with
  | nil =>
    rw [optChar_nil] at h
    show (optChar p k w).isSome
    cases w with
    | nil => exact h
    | cons c w2 =>
      rw [optChar_cons]
      by_cases hc : p c = true
      · rw [if_pos hc]
        exact orElse_isSome.2 (Or.inr (hk [] (c :: w2) h))
      · rw [if_neg hc]
        exact hk [] (c :: w2) h
  | cons c u =>
    rw [optChar_cons] at h
    show (optChar p k (c :: (u ++ w))).isSome
    rw [optChar_cons]
    by_cases hc : p c = true
    · rw [if_pos hc] at h ⊢
      rcases orElse_isSome.1 h with h1 | h1
      · rw [map_isSome] at h1
        exact orElse_isSome.2 (Or.inl (by rw [map_isSome]; exact hk u w h1))
      · exact orElse_isSome.2 (Or.inr (hk (c :: u) w h1))
    · rw [if_neg hc] at h ⊢
      exact hk (c :: u) w h

theorem klb_optChar {p : Char → Bool} {c0 : Nat} {k : List Char → Option Nat} (hk : KLB c0 k) :
    KLB c0 (optChar p k) := by
  intro s j h
  cases s with
  | nil => exact hk [] j h
  | cons c rest =>
    rw [optChar_cons] at h
    by_cases hc : p c = true
    · rw [if_pos hc] at h
      rcases orElse_eq_some.1 h with h1 | ⟨_, h1⟩
      · rcases Option.map_eq_some'.1 h1 with ⟨j0, hj0, rfl⟩
        have := hk rest j0 hj0
        omega
      · exact hk _ _ h1
    · rw [if_neg hc] at h
      exact hk _ _ h

theorem kbar_charsN {p : Char → Bool} {k : List Char → Option Nat} (hp : p '[' = false)
    (hk : KBar k) : ∀ n, KBar (charsN p n k)
  | 0 => by
    intro u w
    rw [charsN_zero, charsN_zero]
    exact hk u w
  | n + 1 => by
    intro u w
    cases u with
    | nil =>
      show charsN p (n + 1) k ('[' :: w) = charsN p (n + 1) k []
      rw [charsN_succ_cons, charsN_succ_nil, if_neg (by simp [hp])]
    | cons c u =>
      show charsN p (n + 1) k (c :: (u ++ '[' :: w)) = charsN p (n + 1) k (c :: u)
      rw [charsN_succ_cons, charsN_succ_cons]
      by_cases hc : p c = true
      · rw [if_pos hc, if_pos hc, kbar_charsN hp hk n u w]
      · rw [if_neg hc, if_neg hc]

theorem kmono_charsN {p : Char → Bool} {k : List Char → Option Nat} (hk : KMono k) :
    ∀ n, KMono (charsN p n k)
  | 0 => by
    intro u w h
    rw [charsN_zero] at h
    rw [charsN_zero]
    exact hk u w h
  | n + 1 => by
    intro u w h
    cases u with
    | nil => rw [charsN_succ_nil] at h; cases h
    | cons c u =>
      rw [charsN_succ_cons] at h
      show (charsN p (n + 1) k (c :: (u ++ w))).isSome
      rw [charsN_succ_cons]
      by_cases hc : p c = true
      · rw [if_pos hc] at h ⊢
        rw [map_isSome] at h ⊢
        exact kmono_charsN hk n u w h
      · rw [if_neg hc] at h; cases h

theorem klb_charsN {p : Char → Bool} {c0 : Nat} {k : List Char → Option Nat} (hk : KLB c0 k) :
    ∀ n, KLB (n + c0) (charsN p n k)
  | 0 => by
    intro s j h
    rw [charsN_zero] at h
    have := hk s j h
    omega
  | n + 1 => by
    intro s j h
    cases s with
    | nil => rw [charsN_succ_nil] at h; cases h
    | cons c rest =>
      rw [charsN_succ_cons] at h
      by_cases hc : p c = true
      · rw [if_pos hc] at h
        rcases Option.map_eq_some'.1 h with ⟨j0, hj0, rfl⟩
        have := klb_charsN hk n rest j0 hj0
        omega
      · rw [if_neg hc] at h; cases h

theorem kbar_phoneGroup {k : List Char → Option Nat} (hk : KBar k) : KBar (phoneGroup k) := by
  intro u w
  have hA : KBar (charsN isDigitChar 2 (optChar isJsSpace k)) :=
    kbar_charsN (by decide) (kbar_optChar (by decide) hk) 2
  have hB : KBar (charsN isDigitChar 1 (optChar isJsSpace k)) :=
    kbar_charsN (by decide) (kbar_optChar (by decide) hk) 1
  cases u with
  | nil =>
    show phoneGroup k ('[' :: w) = phoneGroup k []
    rw [phoneGroup_cons, phoneGroup_nil, if_neg (by decide)]
    exact hk [] w
  | cons c u =>
    show phoneGroup k (c :: (u ++ '[' :: w)) = phoneGroup k (c :: u)
    rw [phoneGroup_cons, phoneGroup_cons]
    have h2 : k (c :: (u ++ '[' :: w)) = k (c :: u) := hk (c :: u) w
    by_cases hc : c = '+'
    · rw [if_pos hc, if_pos hc, hA u w, hB u w, h2]
    · rw [if_neg hc, if_neg hc]
      exact h2

theorem kmono_phoneGroup {k : List Char → Option Nat} (hk : KMono k) : KMono (phoneGroup k) := by
  intro u w h
  have hA : KMono (charsN isDigitChar 2 (optChar isJsSpace k)) :=
    kmono_charsN (kmono_optChar hk) 2
  have hB : KMono (charsN isDigitChar 1 (optChar isJsSpace k)) :=
    kmono_charsN (kmono_optChar hk) 1
  cases u with
  | nil =>
    rw [phoneGroup_nil] at h
    show (phoneGroup k w).isSome
    cases w with
    | nil => exact h
    | cons c w2 =>
      rw [phoneGroup_cons]
      by_cases hc : c = '+'
      · rw [if_pos hc]
        exact orElse_isSome.2 (Or.inr (hk [] (c :: w2) h))
      · rw [if_neg hc]
        exact hk [] (c :: w2) h
  | cons c u =>
    rw [phoneGroup_cons] at h
    show (phoneGroup k (c :: (u ++ w))).isSome
    rw [phoneGroup_cons]
    by_cases hc : c = '+'
    · rw [if_pos hc] at h ⊢
      rcases orElse_isSome.1 h with h1 | h1
      · rw [map_isSome] at h1
        rcases orElse_isSome.1 h1 with h2 | h2
        · refine orElse_isSome.2 (Or.inl ?_)
          rw [map_isSome]
          exact orElse_isSome.2 (Or.inl (hA u w h2))
        · refine orElse_isSome.2 (Or.inl ?_)
          rw [map_isSome]
          exact orElse_isSome.2 (Or.inr (hB u w h2))
      · exact orElse_isSome.2 (Or.inr (hk (c :: u) w h1))
    · rw [if_neg hc] at h ⊢
      exact hk (c :: u) w h

theorem klb_phoneGroup {c0 : Nat} {k : List Char → Option Nat} (hk : KLB c0 k) :
    KLB c0 (phoneGroup k) := by
  intro s j h
  have hA : KLB (2 + c0) (charsN isDigitChar 2 (optChar isJsSpace k)) :=
    klb_charsN (klb_optChar hk) 2
  have hB : KLB (1 + c0) (charsN isDigitChar 1 (optChar isJsSpace k)) :=
    klb_charsN (klb_optChar hk) 1
  cases s with
  | nil => exact hk [] j h
  | cons c rest =>
    rw [phoneGroup_cons] at h
    by_cases hc : c = '+'
    · rw [if_pos hc] at h
      rcases orElse_eq_some.1 h with h1 | ⟨_, h1⟩
      · rcases Option.map_eq_some'.1 h1 with ⟨j0, hj0, rfl⟩
        rcases orElse_eq_some.1 hj0 with h2 | ⟨_, h2⟩
        · have := hA rest j0 h2
          omega
        · have := hB rest j0 h2
          omega
      · exact hk _ _ h1
    · rw [if_neg hc] at h
      exact hk _ _ h

theorem phoneMatchAt_bar : ∀ u w, phoneMatchAt (u ++ '[' :: w) = phoneMatchAt u :=
  kbar_phoneGroup (kbar_optChar (by decide) (kbar_charsN (by decide)
    (kbar_optChar (by decide) (kbar_optChar (by decide) (kbar_charsN (by decide)
      (kbar_optChar (by decide) (kbar_charsN (by decide) kbar_done 4)) 3))) 3))

theorem phoneMatchAt_mono : ∀ u w, (phoneMatchAt u).isSome → (phoneMatchAt (u ++ w)).isSome :=
  kmono_phoneGroup (kmono_optChar (kmono_charsN
    (kmono_optChar (kmono_optChar (kmono_charsN
      (kmono_optChar (kmono_charsN kmono_done 4)) 3))) 3))

theorem phoneMatchAt_lb : ∀ s j, phoneMatchAt s = some j → 10 ≤ j := by
  have h : KLB 10 phoneMatchAt := klb_phoneGroup (klb_optChar (klb_charsN
    (klb_optChar (klb_optChar (klb_charsN
      (klb_optChar (klb_charsN klb_done 4)) 3))) 3))
  intro s j hj
  exact h s j hj

theorem phoneMatchAt_pos {s : List Char} {k : Nat} (h : phoneMatchAt s = some k) : 0 < k := by
  have := phoneMatchAt_lb s k h
  omega

theorem phoneMatchAt_nil : phoneMatchAt [] = none := rfl

/-- No phone match can start at a character that is not a digit, `+` or `(`. -/
theorem phoneMatchAt_cons_none {c : Char} {r : List Char} (h1 : isDigitChar c = false)
    (h2 : c ≠ '+') (h3 : (c == '(') = false) : phoneMatchAt (c :: r) = none := by
  show phoneGroup _ (c :: r) = none
  rw [phoneGroup_cons, if_neg h2]
  show optChar _ _ (c :: r) = none
  rw [optChar_cons, if_neg (by simp [h3])]
  show charsN _ 3 _ (c :: r) = none
  rw [charsN_succ_cons, if_neg (by simp [h1])]


/-! ### Token facts

Both replacement tokens start with `[`, end with `]`, and contain no
character that can start a phone match (`+`, `(` or a digit) and no `@`;
every nonempty suffix of a token therefore blocks both matchers whatever
follows it. -/

theorem emailToken_eq : emailToken = '[' :: "EMAIL_REDACTED]".toList := by decide

theorem phoneToken_eq : phoneToken = '[' :: "PHONE_REDACTED]".toList := by decide

theorem emailToken_tails_ok :
    ∀ σ ∈ emailToken.tails,
      σ = [] ∨ ((∃ x ∈ σ, isEmailLocalChar x = false) ∧ '@' ∉ σ) := by decide

theorem phoneToken_tails_ok :
    ∀ σ ∈ phoneToken.tails,
      σ = [] ∨ ((∃ x ∈ σ, isEmailLocalChar x = false) ∧ '@' ∉ σ) := by decide

theorem emailToken_no_phone_start :
    ∀ c ∈ emailToken, isDigitChar c = false ∧ c ≠ '+' ∧ (c == '(') = false := by decide

theorem phoneToken_no_phone_start :
    ∀ c ∈ phoneToken, isDigitChar c = false ∧ c ≠ '+' ∧ (c == '(') = false := by decide

theorem emailMatchAt_tok_email {σ : List Char} (hs : σ <:+ emailToken) (hne : σ ≠ [])
    (r : List Char) : emailMatchAt (σ ++ r) = none := by
  rcases emailToken_tails_ok σ ((List.mem_tails σ emailToken).2 hs) with rfl | ⟨h1, h2⟩
  · exact absurd rfl hne
  · exact emailMatchAt_block h1 h2 r

theorem emailMatchAt_tok_phone {σ : List Char} (hs : σ <:+ phoneToken) (hne : σ ≠ [])
    (r : List Char) : emailMatchAt (σ ++ r) = none := by
  rcases phoneToken_tails_ok σ ((List.mem_tails σ phoneToken).2 hs) with rfl | ⟨h1, h2⟩
  · exact absurd rfl hne
  · exact emailMatchAt_block h1 h2 r

theorem phoneMatchAt_tok_email {σ : List Char} (hs : σ <:+ emailToken) (hne : σ ≠ [])
    (r : List Char) : phoneMatchAt (σ ++ r) = none := by
  cases σ with
  | nil => exact absurd rfl hne
  | cons c σ2 =>
    have hc : c ∈ emailToken := hs.mem (List.mem_cons_self _ _)
    rcases emailToken_no_phone_start c hc with ⟨h1, h2, h3⟩
    exact phoneMatchAt_cons_none h1 h2 h3

theorem phoneMatchAt_tok_phone {σ : List Char} (hs : σ <:+ phoneToken) (hne : σ ≠ [])
    (r : List Char) : phoneMatchAt (σ ++ r) = none := by
  cases σ with
  | nil => exact absurd rfl hne
  | cons c σ2 =>
    have hc : c ∈ phoneToken := hs.mem (List.mem_cons_self _ _)
    rcases phoneToken_no_phone_start c hc with ⟨h1, h2, h3⟩
    exact phoneMatchAt_cons_none h1 h2 h3

/-! ### The scanner leaves no matches behind -/

/-- Every suffix of a scanner output fails the matcher: the scan result is
fully redacted. -/
def Clean (m : List Char → Option Nat) (w : List Char) : Prop :=
  ∀ v, v <:+ w → m v = none

theorem suffix_append_cases :
    ∀ {tok : List Char} {v X : List Char}, v <:+ tok ++ X →
      v <:+ X ∨ ∃ σ, σ <:+ tok ∧ v = σ ++ X
  | [], v, X, h => Or.inl h
  | t :: tok, v, X, h => by
    rcases List.suffix_cons_iff.1 h with rfl | h2
    · exact Or.inr ⟨t :: tok, List.suffix_refl _, rfl⟩
    · rcases suffix_append_cases h2 with h3 | ⟨σ, hσ, rfl⟩
      · exact Or.inl h3
      · exact Or.inr ⟨σ, hσ.trans (List.suffix_cons t tok), rfl⟩

theorem replaceScanAux_step (m : List Char → Option Nat) (tok : List Char) (fuel : Nat)
    (c : Char) (rest : List Char) :
    replaceScanAux m tok (fuel + 1) (c :: rest) =
      match m (c :: rest) with
      | some (k + 1) => tok ++ replaceScanAux m tok fuel (rest.drop k)
      | _ => c :: replaceScanAux m tok fuel rest := rfl

theorem replaceScanAux_succ_some {m : List Char → Option Nat} {tok : List Char} {fuel : Nat}
    {c : Char} {rest : List Char} {k : Nat} (h : m (c :: rest) = some (k + 1)) :
    replaceScanAux m tok (fuel + 1) (c :: rest) =
      tok ++ replaceScanAux m tok fuel (rest.drop k) := by
  rw [replaceScanAux_step, h]

theorem replaceScanAux_succ_none {m : List Char → Option Nat} {tok : List Char} {fuel : Nat}
    {c : Char} {rest : List Char} (h : m (c :: rest) = none) :
    replaceScanAux m tok (fuel + 1) (c :: rest) = c :: replaceScanAux m tok fuel rest := by
  rw [replaceScanAux_step, h]

/-- Master lemma: a scanner using matcher `m` and its own token produces
output on which `m` fails everywhere.  The second conjunct is the context
transfer invariant that drives the induction: if `m` failed at a position
with the original input as context, it still fails there with the scanned
output as context. -/
theorem replaceScanAux_selfclean (m : List Char → Option Nat) (tok tokTail : List Char)
    (htok : tok = '[' :: tokTail)
    (hpos : ∀ s k, m s = some k → 0 < k)
    (hmono : ∀ u k, m u = some k → ∀ w, (m (u ++ w)).isSome)
    (hbar : ∀ u w, m (u ++ '[' :: w) = m u)
    (hblock : ∀ σ, σ <:+ tok → σ ≠ [] → ∀ r, m (σ ++ r) = none)
    (hnil : m [] = none) :
    ∀ fuel s, s.length ≤ fuel →
      Clean m (replaceScanAux m tok fuel s) ∧
      (∀ u, m (u ++ s) = none → m (u ++ replaceScanAux m tok fuel s) = none) := by
  intro fuel
  induction fuel with
  | zero =>
    intro s hs
    have hs0 : s = [] := List.length_eq_zero.1 (Nat.le_antisymm hs (Nat.zero_le _))
    subst hs0
    constructor
    · intro v hv
      rw [List.suffix_nil.1 hv]
      exact hnil
    · intro u hu
      exact hu
  | succ fuel ih =>
    intro s hs
    cases s with
    | nil =>
      constructor
      · intro v hv
        rw [List.suffix_nil.1 hv]
        exact hnil
      · intro u hu
        exact hu
    | cons c rest =>
      cases hm : m (c :: rest) with
      | some k =>
        cases k with
        | zero => exact absurd (hpos _ _ hm) (by omega)
        | succ k =>
          have hs2 : (rest.drop k).length ≤ fuel := by
            have := List.length_drop k rest
            simp only [List.length_cons] at hs
            omega
          rcases ih (rest.drop k) hs2 with ⟨ihC, ihT⟩
          rw [replaceScanAux_succ_some hm]
          constructor
          · intro v hv
            rcases suffix_append_cases hv with hv2 | ⟨σ, hσ, rfl⟩
            · exact ihC v hv2
            · by_cases hσe : σ = []
              · subst hσe
                exact ihC _ (List.suffix_refl _)
              · exact hblock σ hσ hσe _
          · intro u hu
            have hmu : m u = none := by
              cases hmu : m u with
              | none => rfl
              | some j =>
                have := hmono u j hmu (c :: rest)
                rw [hu] at this
                cases this
            have heq : u ++ (tok ++ replaceScanAux m tok fuel (rest.drop k)) =
                u ++ '[' :: (tokTail ++ replaceScanAux m tok fuel (rest.drop k)) := by
              rw [htok]
              simp
            rw [heq, hbar]
            exact hmu
      | none =>
        have hs2 : rest.length ≤ fuel := by
          simp only [List.length_cons] at hs
          omega
        rcases ih rest hs2 with ⟨ihC, ihT⟩
        rw [replaceScanAux_succ_none hm]
        constructor
        · intro v hv
          rcases List.suffix_cons_iff.1 hv with rfl | hv2
          · have h1 : m ([c] ++ rest) = none := hm
            have := ihT [c] h1
            exact this
          · exact ihC v hv2
        · intro u hu
          have h1 : m ((u ++ [c]) ++ rest) = none := by
            have : (u ++ [c]) ++ rest = u ++ c :: rest := by simp
            rw [this]
            exact hu
          have h2 := ihT (u ++ [c]) h1
          have : (u ++ [c]) ++ replaceScanAux m tok fuel rest =
              u ++ c :: replaceScanAux m tok fuel rest := by simp
          rw [this] at h2
          exact h2

/-- Master lemma, cross version: scanning with a different matcher `m2`
preserves cleanness for `m`, provided `m` is blocked on the suffixes of the
token that `m2` inserts. -/
theorem replaceScanAux_crossclean (m m2 : List Char → Option Nat) (tok tokTail : List Char)
    (htok : tok = '[' :: tokTail)
    (hpos2 : ∀ s k, m2 s = some k → 0 < k)
    (hmono : ∀ u k, m u = some k → ∀ w, (m (u ++ w)).isSome)
    (hbar : ∀ u w, m (u ++ '[' :: w) = m u)
    (hblock : ∀ σ, σ <:+ tok → σ ≠ [] → ∀ r, m (σ ++ r) = none) :
    ∀ fuel s, s.length ≤ fuel → Clean m s →
      Clean m (replaceScanAux m2 tok fuel s) ∧
      (∀ u, m (u ++ s) = none → m (u ++ replaceScanAux m2 tok fuel s) = none) := by
  intro fuel
  induction fuel with
  | zero =>
    intro s hs hcl
    have hs0 : s = [] := List.length_eq_zero.1 (Nat.le_antisymm hs (Nat.zero_le _))
    subst hs0
    exact ⟨hcl, fun u hu => hu⟩
  | succ fuel ih =>
    intro s hs hcl
    cases s with
    | nil => exact ⟨hcl, fun u hu => hu⟩
    | cons c rest =>
      have hclrest : Clean m rest := fun v hv => hcl v (hv.trans (List.suffix_cons c rest))
      cases hm : m2 (c :: rest) with
      | some k =>
        cases k with
        | zero => exact absurd (hpos2 _ _ hm) (by omega)
        | succ k =>
          have hs2 : (rest.drop k).length ≤ fuel := by
            have := List.length_drop k rest
            simp only [List.length_cons] at hs
            omega
          have hcl2 : Clean m (rest.drop k) := fun v hv =>
            hclrest v (hv.trans (List.drop_suffix k rest))
          rcases ih (rest.drop k) hs2 hcl2 with ⟨ihC, ihT⟩
          rw [replaceScanAux_succ_some hm]
          constructor
          · intro v hv
            rcases suffix_append_cases hv with hv2 | ⟨σ, hσ, rfl⟩
            · exact ihC v hv2
            · by_cases hσe : σ = []
              · subst hσe
                exact ihC _ (List.suffix_refl _)
              · exact hblock σ hσ hσe _
          · intro u hu
            have hmu : m u = none := by
              cases hmu : m u with
              | none => rfl
              | some j =>
                have := hmono u j hmu (c :: rest)
                rw [hu] at this
                cases this
            have heq : u ++ (tok ++ replaceScanAux m2 tok fuel (rest.drop k)) =
                u ++ '[' :: (tokTail ++ replaceScanAux m2 tok fuel (rest.drop k)) := by
              rw [htok]
              simp
            rw [heq, hbar]
            exact hmu
      | none =>
        have hs2 : rest.length ≤ fuel := by
          simp only [List.length_cons] at hs
          omega
        rcases ih rest hs2 hclrest with ⟨ihC, ihT⟩
        rw [replaceScanAux_succ_none hm]
        constructor
        · intro v hv
          rcases List.suffix_cons_iff.1 hv with rfl | hv2
          · have h1 : m ([c] ++ rest) = none := hcl _ (List.suffix_refl _)
            exact ihT [c] h1
          · exact ihC v hv2
        · intro u hu
          have h1 : m ((u ++ [c]) ++ rest) = none := by
            have heq2 : (u ++ [c]) ++ rest = u ++ c :: rest := by simp
            rw [heq2]
            exact hu
          have h2 := ihT (u ++ [c]) h1
          have heq3 : (u ++ [c]) ++ replaceScanAux m2 tok fuel rest =
              u ++ c :: replaceScanAux m2 tok fuel rest := by simp
          rw [heq3] at h2
          exact h2

/-- A scan over clean input is the identity. -/
theorem replaceScanAux_id_of_clean {m : List Char → Option Nat} {tok : List Char} :
    ∀ (fuel : Nat) (s : List Char), Clean m s → replaceScanAux m tok fuel s = s
  | 0, s, _ => rfl
  | fuel + 1, [], _ => rfl
  | fuel + 1, c :: rest, h => by
    have hm : m (c :: rest) = none := h _ (List.suffix_refl _)
    rw [replaceScanAux_succ_none hm]
    rw [replaceScanAux_id_of_clean fuel rest
      (fun v hv => h v (hv.trans (List.suffix_cons c rest)))]

theorem replaceScan_id_of_clean {m : List Char → Option Nat} {tok : List Char} {s : List Char}
    (h : Clean m s) : replaceScan m tok s = s :=
  replaceScanAux_id_of_clean s.length s h


theorem replaceScanAux_succ_zero {m : List Char → Option Nat} {tok : List Char} {fuel : Nat}
    {c : Char} {rest : List Char} (h : m (c :: rest) = some 0) :
    replaceScanAux m tok (fuel + 1) (c :: rest) = c :: replaceScanAux m tok fuel rest := by
  rw [replaceScanAux_step, h]

/-! ### The two passes of `redactPII` leave no matches behind -/

theorem redactEmailsL_clean (s : List Char) : Clean emailMatchAt (redactEmailsL s) :=
  (replaceScanAux_selfclean emailMatchAt emailToken _ emailToken_eq
    (fun _ _ h => emailMatchAt_pos h)
    (fun _ _ h w => emailMatchAt_mono h w)
    emailMatchAt_bar
    (fun σ hσ hne r => emailMatchAt_tok_email hσ hne r)
    emailMatchAt_nil
    s.length s (Nat.le_refl _)).1

theorem redactPhonesL_selfclean (s : List Char) : Clean phoneMatchAt (redactPhonesL s) :=
  (replaceScanAux_selfclean phoneMatchAt phoneToken _ phoneToken_eq
    (fun _ _ h => phoneMatchAt_pos h)
    (fun u _ h w => phoneMatchAt_mono u w (by rw [h]; rfl))
    phoneMatchAt_bar
    (fun σ hσ hne r => phoneMatchAt_tok_phone hσ hne r)
    phoneMatchAt_nil
    s.length s (Nat.le_refl _)).1

theorem redactPhonesL_crossclean {s : List Char} (h : Clean emailMatchAt s) :
    Clean emailMatchAt (redactPhonesL s) :=
  (replaceScanAux_crossclean emailMatchAt phoneMatchAt phoneToken _ phoneToken_eq
    (fun _ _ h2 => phoneMatchAt_pos h2)
    (fun _ _ h2 w => emailMatchAt_mono h2 w)
    emailMatchAt_bar
    (fun σ hσ hne r => emailMatchAt_tok_phone hσ hne r)
    s.length s (Nat.le_refl _) h).1

theorem redactPIIL_idem (s : List Char) : redactPIIL (redactPIIL s) = redactPIIL s := by
  have h2 : Clean emailMatchAt (redactPIIL s) := redactPhonesL_crossclean (redactEmailsL_clean s)
  have h3 : Clean phoneMatchAt (redactPIIL s) := redactPhonesL_selfclean (redactEmailsL s)
  show redactPhonesL (redactEmailsL (redactPIIL s)) = redactPIIL s
  rw [show redactEmailsL (redactPIIL s) = redactPIIL s from replaceScan_id_of_clean h2]
  exact replaceScan_id_of_clean h3

/-- C8: `redactPII` is idempotent — for every string `x`,
`redactPII (redactPII x) = redactPII x`; re-running redaction on
already-redacted text is a no-op. -/
theorem redactPII_idempotent (s : String) : redactPII (redactPII s) = redactPII s :=
  congrArg String.mk (redactPIIL_idem s.data)

/-! ### Order of the two passes (claim C7) -/

theorem emailMatchAt_none_of_no_at {v : List Char} (h : '@' ∉ v) : emailMatchAt v = none := by
  cases hm : emailMatchAt v with
  | none => rfl
  | some k => exact absurd (emailMatchAt_mem_at hm) h

theorem clean_email_of_no_at {s : List Char} (h : '@' ∉ s) : Clean emailMatchAt s :=
  fun v hv => emailMatchAt_none_of_no_at (fun hc => h (hv.mem hc))

theorem replaceScanAux_mem {m : List Char → Option Nat} {tok : List Char} :
    ∀ (fuel : Nat) (s : List Char) (c : Char),
      c ∈ replaceScanAux m tok fuel s → c ∈ s ∨ c ∈ tok
  | 0, s, c, h => Or.inl h
  | _ + 1, [], c, h => absurd h (by simp [replaceScanAux])
  | fuel + 1, a :: rest, c, h => by
    cases hm : m (a :: rest) with
    | some k =>
      cases k with
      | zero =>
        rw [replaceScanAux_succ_zero hm] at h
        rcases List.mem_cons.1 h with rfl | h2
        · exact Or.inl (List.mem_cons_self _ _)
        · rcases replaceScanAux_mem fuel rest c h2 with h3 | h3
          · exact Or.inl (List.mem_cons_of_mem _ h3)
          · exact Or.inr h3
      | succ k =>
        rw [replaceScanAux_succ_some hm] at h
        rcases List.mem_append.1 h with h2 | h2
        · exact Or.inr h2
        · rcases replaceScanAux_mem fuel (rest.drop k) c h2 with h3 | h3
          · exact Or.inl (List.mem_cons_of_mem _ ((List.drop_suffix k rest).mem h3))
          · exact Or.inr h3
    | none =>
      rw [replaceScanAux_succ_none hm] at h
      rcases List.mem_cons.1 h with rfl | h2
      · exact Or.inl (List.mem_cons_self _ _)
      · rcases replaceScanAux_mem fuel rest c h2 with h3 | h3
        · exact Or.inl (List.mem_cons_of_mem _ h3)
        · exact Or.inr h3

theorem redactPhonesL_no_at {s : List Char} (h : '@' ∉ s) : '@' ∉ redactPhonesL s := by
  intro hc
  rcases replaceScanAux_mem _ _ _ hc with h1 | h1
  · exact h h1
  · exact absurd h1 (by decide)

/-- C7 counterexample: on `"1234567890@ab.cd"` the two passes do not
commute.  The code (emails first) turns the whole string into
`[EMAIL_REDACTED]`; in the reversed order the phone pass eats the ten-digit
local part first, leaving `[PHONE_REDACTED]@ab.cd`. -/
theorem redact_order_cx :
    redactPhonesL (redactEmailsL "1234567890@ab.cd".toList) ≠
      redactEmailsL (redactPhonesL "1234567890@ab.cd".toList) := by decide

/-- C7 (amended): the two redaction passes need not commute in general (a
ten-digit email local part is consumed by whichever pattern runs first);
they do commute on every input containing no `@`, where the email pass is
the identity. -/
theorem redact_order_commute_no_at (s : String) (h : '@' ∉ s.data) :
    redactEmailsL (redactPhonesL s.data) = redactPhonesL (redactEmailsL s.data) := by
  rw [show redactEmailsL (redactPhonesL s.data) = redactPhonesL s.data from
        replaceScan_id_of_clean (clean_email_of_no_at (redactPhonesL_no_at h)),
      show redactEmailsL s.data = s.data from
        replaceScan_id_of_clean (clean_email_of_no_at h)]

/-- Witness for the amended C7 at a concrete `@`-free input. -/
theorem redact_order_commute_no_at_witness :
    '@' ∉ "call 555-123-4567 now".data ∧
      redactEmailsL (redactPhonesL "call 555-123-4567 now".data) =
        redactPhonesL (redactEmailsL "call 555-123-4567 now".data) :=
  ⟨by decide, redact_order_commute_no_at "call 555-123-4567 now" (by decide)⟩


/-! ### Base64 (`btoa` / `atob`)

`encryptData` stores `btoa(String.fromCharCode(...combined))` and
`decryptData` begins with `atob`.  The bytes of a `Uint8Array` are below
256, so the binary-string detour is modelled by working on `Fin 256`
directly.  `atob` implements the WHATWG forgiving-base64 decode: strip
ASCII whitespace, strip up to two trailing `=` when the length is a
multiple of four, reject length `1 mod 4` and non-alphabet characters,
and discard leftover bits of a final partial chunk. -/

abbrev Byte := Fin 256

def b64Alphabet : List Char :=
  "ABCDEFGHIJKLMNOPQRSTUVWXYZabcdefghijklmnopqrstuvwxyz0123456789+/".toList

def b64Char (n : Nat) : Char := b64Alphabet.getD n '?'

def btoaAux : List Byte → List Char
  | [] => []
  | [a] => [b64Char (a.val / 4), b64Char (a.val % 4 * 16), '=', '=']
  | [a, b] =>
    [b64Char (a.val / 4), b64Char (a.val % 4 * 16 + b.val / 16), b64Char (b.val % 16 * 4), '=']
  | a :: b :: c :: rest =>
    b64Char (a.val / 4) :: b64Char (a.val % 4 * 16 + b.val / 16) ::
      b64Char (b.val % 16 * 4 + c.val / 64) :: b64Char (c.val % 64) :: btoaAux rest

/-- JS `btoa` on a binary string of the given bytes. -/
def btoa (bs : List Byte) : List Char := btoaAux bs

def b64Index (c : Char) : Option (Fin 64) :=
  if h : b64Alphabet.indexOf c < 64 then some ⟨b64Alphabet.indexOf c, h⟩ else none

def decodeQuad (i1 i2 i3 i4 : Fin 64) : List Byte :=
  [⟨i1.val * 4 + i2.val / 16, by have := i1.isLt; have := i2.isLt; omega⟩,
   ⟨i2.val % 16 * 16 + i3.val / 4, by have := i3.isLt; omega⟩,
   ⟨i3.val % 4 * 64 + i4.val, by have := i4.isLt; omega⟩]

def decodeTriple (i1 i2 i3 : Fin 64) : List Byte :=
  [⟨i1.val * 4 + i2.val / 16, by have := i1.isLt; have := i2.isLt; omega⟩,
   ⟨i2.val % 16 * 16 + i3.val / 4, by have := i3.isLt; omega⟩]

def decodePair (i1 i2 : Fin 64) : List Byte :=
  [⟨i1.val * 4 + i2.val / 16, by have := i1.isLt; have := i2.isLt; omega⟩]

def atobAux : List Char → Option (List Byte)
  | [] => some []
  | [_] => none
  | [c1, c2] => do
    let i1 ← b64Index c1
    let i2 ← b64Index c2
    some (decodePair i1 i2)
  | [c1, c2, c3] => do
    let i1 ← b64Index c1
    let i2 ← b64Index c2
    let i3 ← b64Index c3
    some (decodeTriple i1 i2 i3)
  | c1 :: c2 :: c3 :: c4 :: rest => do
    let i1 ← b64Index c1
    let i2 ← b64Index c2
    let i3 ← b64Index c3
    let i4 ← b64Index c4
    let tail ← atobAux rest
    some (decodeQuad i1 i2 i3 i4 ++ tail)

def isB64Ws (c : Char) : Bool :=
  c == ' ' || c == '\t' || c == '\n' || c == '\x0c' || c == '\r'

def stripWs (s : List Char) : List Char := s.filter (fun c => !isB64Ws c)

def stripPad (t : List Char) : List Char :=
  if t.getLast? = some '=' then
    if t.dropLast.getLast? = some '=' then t.dropLast.dropLast else t.dropLast
  else t

/-- Whitespace-stripped input with trailing `=` padding removed (only when
the stripped length is a multiple of four, as the WHATWG algorithm does). -/
def atobStripped (s : List Char) : List Char :=
  if (stripWs s).length % 4 = 0 then stripPad (stripWs s) else stripWs s

/-- JS `atob` (WHATWG forgiving-base64 decode); `none` models the
`InvalidCharacterError` it throws on malformed input. -/
def atob (s : List Char) : Option (List Byte) :=
  if (atobStripped s).length % 4 = 1 then none else atobAux (atobStripped s)

/-- `btoaAux` without the `=` padding. -/
def btoaCore : List Byte → List Char
  | [] => []
  | [a] => [b64Char (a.val / 4), b64Char (a.val % 4 * 16)]
  | [a, b] =>
    [b64Char (a.val / 4), b64Char (a.val % 4 * 16 + b.val / 16), b64Char (b.val % 16 * 4)]
  | a :: b :: c :: rest =>
    b64Char (a.val / 4) :: b64Char (a.val % 4 * 16 + b.val / 16) ::
      b64Char (b.val % 16 * 4 + c.val / 64) :: b64Char (c.val % 64) :: btoaCore rest

def padOf : List Byte → List Char
  | [] => []
  | [_] => ['=', '=']
  | [_, _] => ['=']
  | _ :: _ :: _ :: rest => padOf rest

theorem b64Char_mem (n : Nat) : b64Char n ∈ b64Alphabet ∨ b64Char n = '?' := by
  unfold b64Char List.getD
  cases h : b64Alphabet.get? n with
  | none => simp [h]
  | some c =>
    left
    simp only [h, Option.getD_some]
    exact List.get?_mem h

theorem btoaAux_eq_core_pad : ∀ bs : List Byte, btoaAux bs = btoaCore bs ++ padOf bs
  | [] => rfl
  | [_] => rfl
  | [_, _] => rfl
  | _ :: _ :: _ :: rest => by
    show _ :: _ :: _ :: _ :: btoaAux rest = _ :: _ :: _ :: _ :: (btoaCore rest ++ padOf rest)
    rw [btoaAux_eq_core_pad rest]

theorem btoaCore_mem : ∀ (bs : List Byte) (c : Char), c ∈ btoaCore bs → c ∈ b64Alphabet ∨ c = '?'
  | [], c, h => absurd h (by simp [btoaCore])
  | [_], c, h => by
    rcases List.mem_cons.1 h with rfl | h2
    · exact b64Char_mem _
    · rcases List.mem_cons.1 h2 with rfl | h3
      · exact b64Char_mem _
      · exact absurd h3 (by simp)
  | [_, _], c, h => by
    rcases List.mem_cons.1 h with rfl | h2
    · exact b64Char_mem _
    · rcases List.mem_cons.1 h2 with rfl | h3
      · exact b64Char_mem _
      · rcases List.mem_cons.1 h3 with rfl | h4
        · exact b64Char_mem _
        · exact absurd h4 (by simp)
  | a :: b :: d :: rest, c, h => by
    rcases List.mem_cons.1 h with rfl | h2
    · exact b64Char_mem _
    · rcases List.mem_cons.1 h2 with rfl | h3
      · exact b64Char_mem _
      · rcases List.mem_cons.1 h3 with rfl | h4
        · exact b64Char_mem _
        · rcases List.mem_cons.1 h4 with rfl | h5
          · exact b64Char_mem _
          · exact btoaCore_mem rest c h5

theorem padOf_shape (bs : List Byte) :
    padOf bs = [] ∨ padOf bs = ['='] ∨ padOf bs = ['=', '='] := by
  induction bs using padOf.induct with
  | case1 => exact Or.inl rfl
  | case2 _ => exact Or.inr (Or.inr rfl)
  | case3 _ _ => exact Or.inr (Or.inl rfl)
  | case4 _ _ _ rest ih => exact ih


theorem b64Alphabet_no_ws : ∀ c ∈ b64Alphabet, isB64Ws c = false := by decide

theorem btoaAux_no_ws (bs : List Byte) : ∀ c ∈ btoaAux bs, isB64Ws c = false := by
  intro c hc
  rw [btoaAux_eq_core_pad] at hc
  rcases List.mem_append.1 hc with h | h
  · rcases btoaCore_mem bs c h with h2 | rfl
    · exact b64Alphabet_no_ws c h2
    · rfl
  · rcases padOf_shape bs with hp | hp | hp <;> rw [hp] at h <;> simp at h <;>
      first
      | (subst h; rfl)
      | (rcases h with rfl | rfl <;> rfl)

theorem stripWs_btoaAux (bs : List Byte) : stripWs (btoaAux bs) = btoaAux bs := by
  unfold stripWs
  rw [List.filter_eq_self]
  intro c hc
  rw [btoaAux_no_ws bs c hc]
  rfl

theorem btoaAux_len4 : ∀ bs : List Byte, (btoaAux bs).length % 4 = 0
  | [] => rfl
  | [_] => by simp [btoaAux]
  | [_, _] => by simp [btoaAux]
  | _ :: _ :: _ :: rest => by
    have ih := btoaAux_len4 rest
    simp only [btoaAux, List.length_cons]
    omega

theorem btoaCore_len_mod : ∀ bs : List Byte,
    (btoaCore bs).length % 4 = 0 ∨ (btoaCore bs).length % 4 = 2 ∨ (btoaCore bs).length % 4 = 3
  | [] => Or.inl rfl
  | [_] => Or.inr (Or.inl rfl)
  | [_, _] => Or.inr (Or.inr rfl)
  | _ :: _ :: _ :: rest => by
    have ih := btoaCore_len_mod rest
    simp only [btoaCore, List.length_cons]
    omega

theorem getLast_mem_of_eq {l : List Char} {a : Char} : l.getLast? = some a → a ∈ l := by
  induction l with
  | nil => intro h; cases h
  | cons c t ih =>
    intro h
    cases t with
    | nil =>
      simp only [List.getLast?_singleton, Option.some.injEq] at h
      subst h
      exact List.mem_cons_self _ _
    | cons d t2 =>
      rw [List.getLast?_cons_cons] at h
      exact List.mem_cons_of_mem _ (ih h)

theorem stripPad_no_pad {t : List Char} (h : '=' ∉ t) : stripPad t = t := by
  unfold stripPad
  rw [if_neg]
  intro hl
  exact h (getLast_mem_of_eq hl)

theorem stripPad_core_pad {core pad : List Char} (hc : '=' ∉ core)
    (hp : pad = [] ∨ pad = ['='] ∨ pad = ['=', '=']) :
    stripPad (core ++ pad) = core := by
  rcases hp with rfl | rfl | rfl
  · rw [List.append_nil]
    exact stripPad_no_pad hc
  · unfold stripPad
    rw [if_pos (by simp), List.dropLast_concat]
    rw [if_neg]
    intro hl
    exact hc (getLast_mem_of_eq hl)
  · have heq : core ++ ['=', '='] = (core ++ ['=']) ++ ['='] := by simp
    rw [heq]
    unfold stripPad
    rw [if_pos (by simp), List.dropLast_concat, if_pos (by simp), List.dropLast_concat]

theorem b64Index_b64Char : ∀ i : Fin 64, b64Index (b64Char i.val) = some i := by decide

theorem atobAux_core : ∀ bs : List Byte, atobAux (btoaCore bs) = some bs
  | [] => rfl
  | [a] => by
    have ha := a.isLt
    have h1 := b64Index_b64Char ⟨a.val / 4, by omega⟩
    have h2 := b64Index_b64Char ⟨a.val % 4 * 16, by omega⟩
    show atobAux [b64Char (a.val / 4), b64Char (a.val % 4 * 16)] = some [a]
    unfold atobAux
    rw [h1, h2]
    simp only [Option.bind_eq_bind, Option.some_bind]
    unfold decodePair
    refine congrArg some (List.cons_eq_cons.2 ⟨Fin.ext ?_, rfl⟩)
    show a.val / 4 * 4 + a.val % 4 * 16 / 16 = a.val
    omega
  | [a, b] => by
    have ha := a.isLt
    have hb := b.isLt
    have h1 := b64Index_b64Char ⟨a.val / 4, by omega⟩
    have h2 := b64Index_b64Char ⟨a.val % 4 * 16 + b.val / 16, by omega⟩
    have h3 := b64Index_b64Char ⟨b.val % 16 * 4, by omega⟩
    show atobAux [b64Char (a.val / 4), b64Char (a.val % 4 * 16 + b.val / 16),
      b64Char (b.val % 16 * 4)] = some [a, b]
    unfold atobAux
    rw [h1, h2, h3]
    simp only [Option.bind_eq_bind, Option.some_bind]
    unfold decodeTriple
    refine congrArg some (List.cons_eq_cons.2 ⟨Fin.ext ?_, List.cons_eq_cons.2 ⟨Fin.ext ?_, rfl⟩⟩)
    · show a.val / 4 * 4 + (a.val % 4 * 16 + b.val / 16) / 16 = a.val
      omega
    · show (a.val % 4 * 16 + b.val / 16) % 16 * 16 + b.val % 16 * 4 / 4 = b.val
      omega
  | a :: b :: c :: rest => by
    have ha := a.isLt
    have hb := b.isLt
    have hc := c.isLt
    have h1 := b64Index_b64Char ⟨a.val / 4, by omega⟩
    have h2 := b64Index_b64Char ⟨a.val % 4 * 16 + b.val / 16, by omega⟩
    have h3 := b64Index_b64Char ⟨b.val % 16 * 4 + c.val / 64, by omega⟩
    have h4 := b64Index_b64Char ⟨c.val % 64, by omega⟩
    have ih := atobAux_core rest
    show atobAux (b64Char (a.val / 4) :: b64Char (a.val % 4 * 16 + b.val / 16) ::
      b64Char (b.val % 16 * 4 + c.val / 64) :: b64Char (c.val % 64) :: btoaCore rest) =
      some (a :: b :: c :: rest)
    unfold atobAux
    rw [h1, h2, h3, h4, ih]
    simp only [Option.bind_eq_bind, Option.some_bind]
    unfold decodeQuad
    refine congrArg some ?_
    show _ :: _ :: _ :: rest = _
    refine List.cons_eq_cons.2 ⟨Fin.ext ?_, List.cons_eq_cons.2 ⟨Fin.ext ?_,
      List.cons_eq_cons.2 ⟨Fin.ext ?_, rfl⟩⟩⟩
    · show a.val / 4 * 4 + (a.val % 4 * 16 + b.val / 16) / 16 = a.val
      omega
    · show (a.val % 4 * 16 + b.val / 16) % 16 * 16 + (b.val % 16 * 4 + c.val / 64) / 4 = b.val
      omega
    · show (b.val % 16 * 4 + c.val / 64) % 4 * 64 + c.val % 64 = c.val
      omega

theorem core_no_pad_char (bs : List Byte) : '=' ∉ btoaCore bs := by
  intro h
  rcases btoaCore_mem bs '=' h with h2 | h2
  · exact absurd h2 (by decide)
  · cases h2

theorem atobStripped_btoa (bs : List Byte) : atobStripped (btoa bs) = btoaCore bs := by
  unfold atobStripped btoa
  rw [stripWs_btoaAux, if_pos (btoaAux_len4 bs), btoaAux_eq_core_pad,
    stripPad_core_pad (core_no_pad_char bs) (padOf_shape bs)]

/-- `atob` inverts `btoa`. -/
theorem atob_btoa (bs : List Byte) : atob (btoa bs) = some bs := by
  unfold atob
  rw [atobStripped_btoa]
  rw [if_neg (by rcases btoaCore_len_mod bs with h | h | h <;> omega)]
  exact atobAux_core bs


/-! ### The AEAD pipeline (`encryptData` / `decryptData`)

`window.crypto.subtle` (AES-GCM) and `TextEncoder`/`TextDecoder` are
platform collaborators; they are modelled as structures carrying the laws
the platform guarantees.  `encryptData` draws a fresh 12-byte IV from
`crypto.getRandomValues`; the IV is an explicit argument here. -/

structure AeadCipher (Key : Type) where
  encrypt : Key → List Byte → List Byte → List Byte
  decrypt : Key → List Byte → List Byte → Option (List Byte)
  decrypt_encrypt : ∀ k iv p, decrypt k iv (encrypt k iv p) = some p

structure TextCodec where
  encode : String → List Byte
  decode : List Byte → String
  decode_encode : ∀ s, decode (encode s) = s

/-- `encryptData` (`securityUtils.ts` lines 51-66): UTF-8 encode, AEAD
encrypt under the fresh IV, prepend the IV, base64 the result. -/
def encryptData {K : Type} (C : AeadCipher K) (codec : TextCodec) (key : K) (iv : List Byte)
    (text : String) : String :=
  ⟨btoa (iv ++ C.encrypt key iv (codec.encode text))⟩

/-- The two failure modes of `decryptData`: `atob` throws
`InvalidCharacterError` on malformed base64, and `crypto.subtle.decrypt`
rejects with an `OperationError` when tag verification fails. -/
inductive DecryptError where
  | invalidBase64 : DecryptError
  | aeadFailure : DecryptError
deriving DecidableEq

/-- Second stage of `decryptData`: split off the 12-byte IV, AEAD-decrypt,
UTF-8 decode. -/
def decryptBytes {K : Type} (C : AeadCipher K) (codec : TextCodec) (key : K)
    (bytes : List Byte) : Except DecryptError String :=
  match C.decrypt key (bytes.take 12) (bytes.drop 12) with
  | none => .error .aeadFailure
  | some pt => .ok (codec.decode pt)

/-- `decryptData` (`securityUtils.ts` lines 68-84).  The source has no
try/catch and no error wrapper: both failure modes propagate as-is. -/
def decryptData {K : Type} (C : AeadCipher K) (codec : TextCodec) (key : K) (blob : String) :
    Except DecryptError String :=
  match atob blob.data with
  | none => .error .invalidBase64
  | some bytes => decryptBytes C codec key bytes

theorem decryptBytes_eq_none {K : Type} {C : AeadCipher K} {codec : TextCodec} {key : K}
    {bytes : List Byte} (h : C.decrypt key (bytes.take 12) (bytes.drop 12) = none) :
    decryptBytes C codec key bytes = .error .aeadFailure := by
  unfold decryptBytes
  rw [h]

theorem decryptBytes_eq_some {K : Type} {C : AeadCipher K} {codec : TextCodec} {key : K}
    {bytes pt : List Byte} (h : C.decrypt key (bytes.take 12) (bytes.drop 12) = some pt) :
    decryptBytes C codec key bytes = .ok (codec.decode pt) := by
  unfold decryptBytes
  rw [h]

theorem decryptData_eq_none {K : Type} {C : AeadCipher K} {codec : TextCodec} {key : K}
    {blob : String} (h : atob blob.data = none) :
    decryptData C codec key blob = .error .invalidBase64 := by
  unfold decryptData
  rw [h]

theorem decryptData_eq_some {K : Type} {C : AeadCipher K} {codec : TextCodec} {key : K}
    {blob : String} {bytes : List Byte} (h : atob blob.data = some bytes) :
    decryptData C codec key blob = decryptBytes C codec key bytes := by
  unfold decryptData
  rw [h]

/-- Core round-trip lemma, shared by the developments below. -/
theorem decryptData_encryptData {K : Type} (C : AeadCipher K) (codec : TextCodec)
    (key : K) (iv : List Byte) (text : String) (hiv : iv.length = 12) :
    decryptData C codec key (encryptData C codec key iv text) = .ok text := by
  have hb : atob (encryptData C codec key iv text).data =
      some (iv ++ C.encrypt key iv (codec.encode text)) :=
    atob_btoa (iv ++ C.encrypt key iv (codec.encode text))
  rw [decryptData_eq_some hb]
  have hdec : C.decrypt key ((iv ++ C.encrypt key iv (codec.encode text)).take 12)
      ((iv ++ C.encrypt key iv (codec.encode text)).drop 12) = some (codec.encode text) := by
    rw [List.take_left' hiv, List.drop_left' hiv]
    exact C.decrypt_encrypt key iv (codec.encode text)
  rw [decryptBytes_eq_some hdec, codec.decode_encode]

/-- C1: for every plaintext `p` and key `k`, decrypting the blob produced
by encryption under the same key returns the original plaintext:
`decryptData (encryptData p k) k = p` (for the 12-byte IVs the code
draws). -/
theorem encryptData_decryptData_roundtrip {K : Type} (C : AeadCipher K) (codec : TextCodec)
    (key : K) (iv : List Byte) (text : String) (hiv : iv.length = 12) :
    decryptData C codec key (encryptData C codec key iv text) = .ok text :=
  decryptData_encryptData C codec key iv text hiv

/-! ### Concrete instances used by witnesses and counterexamples -/

/-- The identity cipher: a legitimate `AeadCipher` instance (witnesses
instantiate the abstract platform primitive with it). -/
def idCipher : AeadCipher Unit where
  encrypt := fun _ _ p => p
  decrypt := fun _ _ c => some c
  decrypt_encrypt := fun _ _ _ => rfl

theorem char_toNat_lt (c : Char) : c.toNat < 1114112 := by
  rcases c.valid with h | ⟨_, h⟩
  · exact Nat.lt_trans h (by norm_num)
  · exact h

def charBytes (c : Char) : List Byte :=
  [⟨c.toNat / 65536 % 256, by omega⟩, ⟨c.toNat / 256 % 256, by omega⟩,
   ⟨c.toNat % 256, by omega⟩]

def encodeChars : List Char → List Byte
  | [] => []
  | c :: cs => charBytes c ++ encodeChars cs

def decodeChars : List Byte → List Char
  | b1 :: b2 :: b3 :: rest =>
    Char.ofNat (b1.val * 65536 + b2.val * 256 + b3.val) :: decodeChars rest
  | _ => []

theorem decodeChars_encodeChars : ∀ l : List Char, decodeChars (encodeChars l) = l
  | [] => rfl
  | c :: cs => by
    show decodeChars (charBytes c ++ encodeChars cs) = c :: cs
    have h := char_toNat_lt c
    show Char.ofNat (c.toNat / 65536 % 256 * 65536 + c.toNat / 256 % 256 * 256 + c.toNat % 256)
        :: decodeChars (encodeChars cs) = c :: cs
    rw [decodeChars_encodeChars cs]
    rw [show c.toNat / 65536 % 256 * 65536 + c.toNat / 256 % 256 * 256 + c.toNat % 256 = c.toNat
      by omega]
    rw [Char.ofNat_toNat]

/-- A fixed-width (3 bytes per character) text codec: a legitimate
`TextCodec` instance for witnesses. -/
def toyCodec : TextCodec where
  encode := fun s => encodeChars s.data
  decode := fun bs => ⟨decodeChars bs⟩
  decode_encode := fun s => congrArg String.mk (decodeChars_encodeChars s.data)

/-- Witness for C1: the round trip holds at a concrete key, IV and
plaintext. -/
theorem encryptData_decryptData_roundtrip_witness :
    (List.replicate 12 (0 : Byte)).length = 12 ∧
      decryptData idCipher toyCodec () (encryptData idCipher toyCodec ()
        (List.replicate 12 (0 : Byte)) "hello") = .ok "hello" :=
  ⟨by decide, encryptData_decryptData_roundtrip idCipher toyCodec ()
    (List.replicate 12 (0 : Byte)) "hello" (by decide)⟩

/-- C9 counterexample: the blob `"~~~~"` is malformed base64; `decryptData`
fails in `atob` with an `InvalidCharacterError`-class failure, which is a
different error kind from the tag-verification (`OperationError`) failure —
the source wraps neither in a `DecryptionError`. -/
theorem decryptData_error_kind_cx :
    decryptData idCipher toyCodec () "~~~~" = .error .invalidBase64 ∧
      DecryptError.invalidBase64 ≠ DecryptError.aeadFailure :=
  ⟨rfl, fun h => DecryptError.noConfusion h⟩

/-- C9 (amended): `decryptData` fails with the AEAD error exactly when the
base64 layer succeeds and tag verification fails, and with the distinct
base64 decoding error exactly when `atob` rejects the blob; it never
confuses the two. -/
theorem decryptData_error_taxonomy {K : Type} (C : AeadCipher K) (codec : TextCodec) (key : K)
    (blob : String) :
    (decryptData C codec key blob = .error .invalidBase64 ↔ atob blob.data = none) ∧
    (decryptData C codec key blob = .error .aeadFailure ↔
      ∃ bytes, atob blob.data = some bytes ∧
        C.decrypt key (bytes.take 12) (bytes.drop 12) = none) := by
  cases hb : atob blob.data with
  | none =>
    rw [decryptData_eq_none hb]
    constructor
    · simp
    · simp
  | some bytes =>
    rw [decryptData_eq_some hb]
    cases hd : C.decrypt key (bytes.take 12) (bytes.drop 12) with
    | none =>
      rw [decryptBytes_eq_none hd]
      constructor
      · simp
      · constructor
        · intro _
          exact ⟨bytes, rfl, hd⟩
        · intro _
          trivial
    | some pt =>
      rw [decryptBytes_eq_some hd]
      constructor
      · simp
      · constructor
        · intro h
          simp at h
        · rintro ⟨bytes2, hb2, hd2⟩
          rw [Option.some.injEq] at hb2
          subst hb2
          rw [hd] at hd2
          cases hd2


/-! ### Key lifecycle (`getPersistentKey` / `createSessionKey`)

`getPersistentKey` reads the key stored under the fixed id in the
`harmony-security` IndexedDB store; if absent it generates a fresh key
(`crypto.subtle.generateKey`, modelled as the `freshKey` component of the
state), persists it and returns it. -/

structure KeyStore (Key : Type) where
  stored : Option Key
  freshKey : Key

def getPersistentKey {Key : Type} (st : KeyStore Key) : Key × KeyStore Key :=
  match st.stored with
  | some k => (k, st)
  | none => (st.freshKey, { st with stored := some st.freshKey })

/-- `createSessionKey` (`securityUtils.ts` lines 46-49): the source is a
bare alias — `return getPersistentKey()`. -/
def createSessionKey {Key : Type} (st : KeyStore Key) : Key × KeyStore Key :=
  getPersistentKey st

/-- C10: `createSessionKey` is extensionally equal to `getPersistentKey`: in
every state of the key store both return the same key (and leave the same
state). -/
theorem createSessionKey_eq_getPersistentKey {Key : Type} (st : KeyStore Key) :
    createSessionKey st = getPersistentKey st := rfl

/-! ### The vector store (`vectorDbService.ts`)

`VectorDocument` and `MemoryContext` are from `types.ts`.  The IndexedDB
object store is created with `keyPath: 'id'` and documents get
`crypto.randomUUID()` ids; IndexedDB keeps records sorted by key and
`getAll` returns them in ascending key order, so the store is modelled as a
list kept sorted by id, with fresh ids supplied as explicit arguments.
`add` on an existing key fails (ConstraintError). -/

inductive DocType where
  | chat : DocType
  | memory : DocType
deriving DecidableEq

structure VectorDocument where
  id : String
  content : String
  vector : List ℚ
  timestamp : Nat
  type : DocType
deriving DecidableEq

structure MemoryContext where
  text : String
  timestamp : Nat
  score : ℚ
deriving DecidableEq

/-- IndexedDB string-key comparison: lexicographic on code units. -/
def keyLtChars : List Char → List Char → Bool
  | [], [] => false
  | [], _ :: _ => true
  | _ :: _, [] => false
  | a :: as2, b :: bs2 => if a < b then true else if b < a then false else keyLtChars as2 bs2

def keyLt (a b : String) : Bool := keyLtChars a.data b.data

/-- IndexedDB `add`: insert in key order, fail on a duplicate key. -/
def idbInsert (d : VectorDocument) : List VectorDocument → Option (List VectorDocument)
  | [] => some [d]
  | x :: xs =>
    if keyLt d.id x.id then some (d :: x :: xs)
    else if keyLt x.id d.id then (idbInsert d xs).map (x :: ·)
    else none

/-! Math utilities (`vectorDbService.ts` lines 386-403).  `Math.sqrt` is a
floating-point primitive and is passed in as `sqrtf`; the similarity value
is otherwise exact rational arithmetic (faithful whenever the two vectors
have the embedding provider's common length, which the store guarantees). -/

def dotProduct : List ℚ → List ℚ → ℚ
  | a :: as2, b :: bs2 => a * b + dotProduct as2 bs2
  | _, _ => 0

def sumSq : List ℚ → ℚ
  | [] => 0
  | a :: as2 => a * a + sumSq as2

def magnitude (sqrtf : ℚ → ℚ) (a : List ℚ) : ℚ := sqrtf (sumSq a)

def cosineSimilarity (sqrtf : ℚ → ℚ) (a b : List ℚ) : ℚ :=
  if magnitude sqrtf a = 0 ∨ magnitude sqrtf b = 0 then 0
  else dotProduct a b / (magnitude sqrtf a * magnitude sqrtf b)

/-- Stable descending insertion by score: a later element goes after every
earlier element of equal or higher score.  This is the unique output of the
stable `Array.prototype.sort` with comparator `(a, b) => b.score - a.score`
(sortedness plus stability determine the result). -/
def sortInsertDesc (x : VectorDocument × ℚ) :
    List (VectorDocument × ℚ) → List (VectorDocument × ℚ)
  | [] => [x]
  | y :: ys => if y.2 < x.2 then x :: y :: ys else y :: sortInsertDesc x ys

def sortByScoreDesc (l : List (VectorDocument × ℚ)) : List (VectorDocument × ℚ) :=
  l.foldl (fun acc x => sortInsertDesc x acc) []

/-- The per-entry decrypt step of `search` (lines 481-499): the try/catch
replaces a failed decryption with the `"[Encrypted Memory]"` placeholder. -/
def decryptOrPlaceholder {K : Type} (C : AeadCipher K) (codec : TextCodec) (key : K)
    (p : VectorDocument × ℚ) : MemoryContext :=
  match decryptData C codec key p.1.content with
  | .ok text => { text := text, timestamp := p.1.timestamp, score := p.2 }
  | .error _ => { text := "[Encrypted Memory]", timestamp := p.1.timestamp, score := p.2 }

/-- `VectorDbService.search` (lines 453-502): embed the query (provider
errors propagate), `getAll`, early return on an empty store, score all
documents, stable-sort descending, `slice(0, limit)`, decrypt each
surviving entry with per-entry fault containment.  There is no `minScore`
parameter and no score filtering. -/
def search {K E : Type} (C : AeadCipher K) (codec : TextCodec) (key : K)
    (embed : String → Except E (List ℚ)) (sqrtf : ℚ → ℚ) (st : List VectorDocument)
    (query : String) (limit : Nat) : Except E (List MemoryContext) :=
  match embed query with
  | .error e => .error e
  | .ok queryVector =>
    if st.length = 0 then .ok []
    else
      .ok (((sortByScoreDesc (st.map
        (fun d => (d, cosineSimilarity sqrtf queryVector d.vector)))).take limit).map
          (decryptOrPlaceholder C codec key))

inductive AddError (E : Type) where
  | provider : E → AddError E
  | store : AddError E
deriving DecidableEq

/-- The document `addDocument` assembles (lines 436-442). -/
def assembledDoc {K : Type} (C : AeadCipher K) (codec : TextCodec) (key : K) (newId : String)
    (iv : List Byte) (now : Nat) (text : String) (ty : DocType) (vector : List ℚ) :
    VectorDocument :=
  { id := newId, content := encryptData C codec key iv text, vector := vector,
    timestamp := now, type := ty }

/-- `VectorDbService.addDocument` (lines 426-450): run the embedding and the
encryption on the raw `text` (`Promise.all` — both see the same argument,
no redaction), then open the write transaction and `add` the document.  A
rejected embedding rejects the whole call before any transaction starts, so
the store is returned unchanged on error. -/
def addDocumentRun {K E : Type} (C : AeadCipher K) (codec : TextCodec) (key : K)
    (embed : String → Except E (List ℚ)) (newId : String) (iv : List Byte) (now : Nat)
    (st : List VectorDocument) (text : String) (ty : DocType) :
    Except (AddError E) Unit × List VectorDocument :=
  match embed text with
  | .error e => (.error (.provider e), st)
  | .ok vector =>
    match idbInsert (assembledDoc C codec key newId iv now text ty vector) st with
    | none => (.error .store, st)
    | some st2 => (.ok (), st2)

/-- The persistence step of `ChatInterface.handleSend` (lines 85-151): the
user input is redacted (`cleanInput = redactPII(input)`, line 89) before
being stored (line 149), but the model response `fullResponse` is stored
as-is (line 150). -/
def handleSendPersist {K E : Type} (C : AeadCipher K) (codec : TextCodec) (key : K)
    (embed : String → Except E (List ℚ)) (id1 id2 : String) (iv1 iv2 : List Byte)
    (now1 now2 : Nat) (st : List VectorDocument) (input response : String) :
    Except (AddError E) Unit × List VectorDocument :=
  match addDocumentRun C codec key embed id1 iv1 now1 st (redactPII input) .chat with
  | (.ok _, st1) => addDocumentRun C codec key embed id2 iv2 now2 st1 response .chat
  | r => r


/-! ### Store lemmas -/

theorem keyLtChars_trans : ∀ a b c : List Char,
    keyLtChars a b = true → keyLtChars b c = true → keyLtChars a c = true
  | [], [], _, h1, _ => by cases h1
  | [], _ :: _, [], _, h2 => by cases h2
  | [], _ :: _, _ :: _, _, _ => rfl
  | _ :: _, [], _, h1, _ => by cases h1
  | _ :: _, _ :: _, [], _, h2 => by cases h2
  | a :: as2, b :: bs2, c :: cs2, h1, h2 => by
    unfold keyLtChars at h1 h2 ⊢
    by_cases hab : a < b
    · by_cases hbc : b < c
      · rw [if_pos (lt_trans hab hbc)]
      · rw [if_neg hbc] at h2
        by_cases hcb : c < b
        · rw [if_pos hcb] at h2
          cases h2
        · have hbceq : b = c := le_antisymm (not_lt.mp hcb) (not_lt.mp hbc)
          subst hbceq
          rw [if_pos hab]
    · rw [if_neg hab] at h1
      by_cases hba : b < a
      · rw [if_pos hba] at h1
        cases h1
      · rw [if_neg hba] at h1
        have habeq : a = b := le_antisymm (not_lt.mp hba) (not_lt.mp hab)
        subst habeq
        by_cases hac : a < c
        · rw [if_pos hac]
        · rw [if_neg hac] at h2 ⊢
          by_cases hca : c < a
          · rw [if_pos hca] at h2
            cases h2
          · rw [if_neg hca] at h2 ⊢
            exact keyLtChars_trans as2 bs2 cs2 h1 h2

theorem keyLtChars_asymm : ∀ a b : List Char,
    keyLtChars a b = true → keyLtChars b a = false
  | [], [], h => by cases h
  | [], _ :: _, _ => rfl
  | _ :: _, [], h => by cases h
  | a :: as2, b :: bs2, h => by
    unfold keyLtChars at h ⊢
    by_cases hab : a < b
    · rw [if_neg (lt_asymm hab), if_pos hab]
    · rw [if_neg hab] at h
      by_cases hba : b < a
      · rw [if_pos hba] at h
        cases h
      · rw [if_neg hba] at h
        rw [if_neg hba, if_neg hab]
        exact keyLtChars_asymm as2 bs2 h

theorem keyLt_trans {a b c : String} (h1 : keyLt a b = true) (h2 : keyLt b c = true) :
    keyLt a c = true :=
  keyLtChars_trans a.data b.data c.data h1 h2

theorem keyLt_asymm {a b : String} (h : keyLt a b = true) : keyLt b a = false :=
  keyLtChars_asymm a.data b.data h

theorem idbInsert_mem_inv {d : VectorDocument} :
    ∀ {l l2 : List VectorDocument}, idbInsert d l = some l2 → ∀ x ∈ l2, x = d ∨ x ∈ l := by
  intro l
  induction l with
  | nil =>
    intro l2 h x hx
    cases h
    rcases List.mem_singleton.1 hx with rfl
    exact Or.inl rfl
  | cons y ys ih =>
    intro l2 h x hx
    unfold idbInsert at h
    by_cases h1 : keyLt d.id y.id = true
    · rw [if_pos h1] at h
      cases h
      rcases List.mem_cons.1 hx with rfl | hx2
      · exact Or.inl rfl
      · exact Or.inr hx2
    · rw [if_neg h1] at h
      by_cases h2 : keyLt y.id d.id = true
      · rw [if_pos h2] at h
        cases hrec : idbInsert d ys with
        | none => rw [hrec] at h; cases h
        | some l3 =>
          rw [hrec] at h
          simp only [Option.map_some'] at h
          cases h
          rcases List.mem_cons.1 hx with rfl | hx2
          · exact Or.inr (List.mem_cons_self _ _)
          · rcases ih hrec x hx2 with h3 | h3
            · exact Or.inl h3
            · exact Or.inr (List.mem_cons_of_mem _ h3)
      · rw [if_neg h2] at h
        cases h

theorem idbInsert_self_mem {d : VectorDocument} :
    ∀ {l l2 : List VectorDocument}, idbInsert d l = some l2 → d ∈ l2 := by
  intro l
  induction l with
  | nil =>
    intro l2 h
    cases h
    exact List.mem_singleton.2 rfl
  | cons y ys ih =>
    intro l2 h
    unfold idbInsert at h
    by_cases h1 : keyLt d.id y.id = true
    · rw [if_pos h1] at h
      cases h
      exact List.mem_cons_self _ _
    · rw [if_neg h1] at h
      by_cases h2 : keyLt y.id d.id = true
      · rw [if_pos h2] at h
        cases hrec : idbInsert d ys with
        | none => rw [hrec] at h; cases h
        | some l3 =>
          rw [hrec] at h
          simp only [Option.map_some'] at h
          cases h
          exact List.mem_cons_of_mem _ (ih hrec)
      · rw [if_neg h2] at h
        cases h

theorem idbInsert_mono {d : VectorDocument} :
    ∀ {l l2 : List VectorDocument}, idbInsert d l = some l2 → ∀ x ∈ l, x ∈ l2 := by
  intro l
  induction l with
  | nil =>
    intro l2 _ x hx
    cases hx
  | cons y ys ih =>
    intro l2 h x hx
    unfold idbInsert at h
    by_cases h1 : keyLt d.id y.id = true
    · rw [if_pos h1] at h
      cases h
      exact List.mem_cons_of_mem _ hx
    · rw [if_neg h1] at h
      by_cases h2 : keyLt y.id d.id = true
      · rw [if_pos h2] at h
        cases hrec : idbInsert d ys with
        | none => rw [hrec] at h; cases h
        | some l3 =>
          rw [hrec] at h
          simp only [Option.map_some'] at h
          cases h
          rcases List.mem_cons.1 hx with rfl | hx2
          · exact List.mem_cons_self _ _
          · exact List.mem_cons_of_mem _ (ih hrec x hx2)
      · rw [if_neg h2] at h
        cases h

theorem idbInsert_append {d : VectorDocument} :
    ∀ {l : List VectorDocument}, (∀ x ∈ l, keyLt x.id d.id = true) →
      idbInsert d l = some (l ++ [d])
  | [], _ => rfl
  | y :: ys, h => by
    have hy : keyLt y.id d.id = true := h y (List.mem_cons_self _ _)
    unfold idbInsert
    rw [if_neg (by rw [keyLt_asymm hy]; intro hc; cases hc), if_pos hy,
      idbInsert_append (fun x hx => h x (List.mem_cons_of_mem _ hx))]
    rfl

/-- The store invariant: documents in ascending IndexedDB key order. -/
def storeSorted (st : List VectorDocument) : Prop :=
  List.Pairwise (fun a b => keyLt a.id b.id = true) st

theorem idbInsert_sorted {d : VectorDocument} :
    ∀ {l l2 : List VectorDocument}, storeSorted l → idbInsert d l = some l2 →
      storeSorted l2 := by
  intro l
  induction l with
  | nil =>
    intro l2 _ h
    cases h
    exact List.pairwise_singleton _ _
  | cons y ys ih =>
    intro l2 hs h
    rcases List.pairwise_cons.1 hs with ⟨hy, hys⟩
    unfold idbInsert at h
    by_cases h1 : keyLt d.id y.id = true
    · rw [if_pos h1] at h
      cases h
      refine List.pairwise_cons.2 ⟨?_, hs⟩
      intro z hz
      rcases List.mem_cons.1 hz with rfl | hz2
      · exact h1
      · exact keyLt_trans h1 (hy z hz2)
    · rw [if_neg h1] at h
      by_cases h2 : keyLt y.id d.id = true
      · rw [if_pos h2] at h
        cases hrec : idbInsert d ys with
        | none => rw [hrec] at h; cases h
        | some l3 =>
          rw [hrec] at h
          simp only [Option.map_some'] at h
          cases h
          refine List.pairwise_cons.2 ⟨?_, ih hys hrec⟩
          intro z hz
          rcases idbInsert_mem_inv hrec z hz with rfl | hz2
          · exact h2
          · exact hy z hz2
      · rw [if_neg h2] at h
        cases h

/-! ### Equation lemmas for `addDocumentRun` and `search` -/

theorem addDocumentRun_emb_err {K E : Type} {C : AeadCipher K} {codec : TextCodec} {key : K}
    {embed : String → Except E (List ℚ)} {newId : String} {iv : List Byte} {now : Nat}
    {st : List VectorDocument} {text : String} {ty : DocType} {e : E}
    (hemb : embed text = .error e) :
    addDocumentRun C codec key embed newId iv now st text ty = (.error (.provider e), st) := by
  unfold addDocumentRun
  rw [hemb]

theorem addDocumentRun_ok_some {K E : Type} {C : AeadCipher K} {codec : TextCodec} {key : K}
    {embed : String → Except E (List ℚ)} {newId : String} {iv : List Byte} {now : Nat}
    {st st2 : List VectorDocument} {text : String} {ty : DocType} {v : List ℚ}
    (hemb : embed text = .ok v)
    (hins : idbInsert (assembledDoc C codec key newId iv now text ty v) st = some st2) :
    addDocumentRun C codec key embed newId iv now st text ty = (.ok (), st2) := by
  unfold addDocumentRun
  rw [hemb]
  show (match idbInsert (assembledDoc C codec key newId iv now text ty v) st with
    | none => (Except.error AddError.store, st)
    | some st3 => (Except.ok (), st3)) = (Except.ok (), st2)
  rw [hins]

theorem addDocumentRun_ok_none {K E : Type} {C : AeadCipher K} {codec : TextCodec} {key : K}
    {embed : String → Except E (List ℚ)} {newId : String} {iv : List Byte} {now : Nat}
    {st : List VectorDocument} {text : String} {ty : DocType} {v : List ℚ}
    (hemb : embed text = .ok v)
    (hins : idbInsert (assembledDoc C codec key newId iv now text ty v) st = none) :
    addDocumentRun C codec key embed newId iv now st text ty = (.error .store, st) := by
  unfold addDocumentRun
  rw [hemb]
  show (match idbInsert (assembledDoc C codec key newId iv now text ty v) st with
    | none => (Except.error AddError.store, st)
    | some st3 => (Except.ok (), st3)) = (Except.error AddError.store, st)
  rw [hins]

theorem search_eq_ok {K E : Type} {C : AeadCipher K} {codec : TextCodec} {key : K}
    {embed : String → Except E (List ℚ)} {sqrtf : ℚ → ℚ} {st : List VectorDocument}
    {query : String} {limit : Nat} {qv : List ℚ} (hemb : embed query = .ok qv) :
    search C codec key embed sqrtf st query limit =
      if st.length = 0 then .ok []
      else
        .ok (((sortByScoreDesc (st.map
          (fun d => (d, cosineSimilarity sqrtf qv d.vector)))).take limit).map
            (decryptOrPlaceholder C codec key)) := by
  unfold search
  rw [hemb]

theorem search_eq_err {K E : Type} {C : AeadCipher K} {codec : TextCodec} {key : K}
    {embed : String → Except E (List ℚ)} {sqrtf : ℚ → ℚ} {st : List VectorDocument}
    {query : String} {limit : Nat} {e : E} (hemb : embed query = .error e) :
    search C codec key embed sqrtf st query limit = .error e := by
  unfold search
  rw [hemb]


/-! ### Concrete stubs shared by witnesses and counterexamples -/

def iv12 : List Byte := List.replicate 12 0

/-- Exact square root on the values arising in the concrete stores (all
vectors used have squared magnitude 0 or 1). -/
def sqrtStub : ℚ → ℚ := fun q => if q = 1 then 1 else 0

def embedConst : String → Except Unit (List ℚ) := fun _ => .ok [1, 0]

def embedFail : String → Except Unit (List ℚ) := fun _ => .error ()

/-! ### Claim C6: all-or-nothing writes -/

/-- C6: `addDocument` is all-or-nothing — if the embedding provider call
fails, the whole operation fails (the `Promise.all` rejects before the
write transaction is opened) and the store is unchanged. -/
theorem addDocument_all_or_nothing {K E : Type} (C : AeadCipher K) (codec : TextCodec)
    (key : K) (embed : String → Except E (List ℚ)) (newId : String) (iv : List Byte)
    (now : Nat) (st : List VectorDocument) (text : String) (ty : DocType) {e : E}
    (hemb : embed text = .error e) :
    (addDocumentRun C codec key embed newId iv now st text ty).1 = .error (.provider e) ∧
    (addDocumentRun C codec key embed newId iv now st text ty).2 = st := by
  rw [addDocumentRun_emb_err hemb]
  exact ⟨rfl, rfl⟩

/-- Witness for C6 at a concrete failing provider. -/
theorem addDocument_all_or_nothing_witness :
    embedFail "x" = .error () ∧
      ((addDocumentRun idCipher toyCodec () embedFail "id1" iv12 0 [] "x" .chat).1 =
          .error (.provider ()) ∧
        (addDocumentRun idCipher toyCodec () embedFail "id1" iv12 0 [] "x" .chat).2 = []) :=
  ⟨rfl, addDocument_all_or_nothing idCipher toyCodec () embedFail "id1" iv12 0 [] "x" .chat rfl⟩

/-! ### Claim C2: what plaintext reaches the store -/

set_option maxRecDepth 16384 in
/-- C2 counterexample: `addDocument` performs no redaction.  Called directly
with a text containing an email address, the persisted blob decrypts back
to the raw text, and redaction would have changed it — so the plaintext that
is embedded, encrypted and persisted is the argument itself, not its
redaction.  (In the chat flow line 150 passes the model response to
`addDocument` in exactly this unredacted way.) -/
theorem addDocument_no_redaction_cx :
    ((addDocumentRun idCipher toyCodec () embedConst "id1" iv12 0 []
      "reach me at bob@mail.com" .chat).2.map
        (fun d => decryptData idCipher toyCodec () d.content)) =
      [.ok "reach me at bob@mail.com"] ∧
    redactPII "reach me at bob@mail.com" ≠ "reach me at bob@mail.com" := by
  refine ⟨rfl, ?_⟩
  decide

/-- C2 (amended): `addDocument` embeds and encrypts its argument unchanged;
redaction happens only in the chat interface, which passes
`redactPII(input)` for the user message but the raw model response.  After a
successful `handleSend` persistence step the store holds one document
decrypting to the redacted user input and one decrypting to the unredacted
response. -/
theorem addDocument_plaintext_amended {K E : Type} (C : AeadCipher K) (codec : TextCodec)
    (key : K) (embed : String → Except E (List ℚ)) (id1 id2 : String) (iv1 iv2 : List Byte)
    (now1 now2 : Nat) (st st2 : List VectorDocument) (input response : String)
    (hiv1 : iv1.length = 12) (hiv2 : iv2.length = 12)
    (hrun : handleSendPersist C codec key embed id1 id2 iv1 iv2 now1 now2 st input response =
      (.ok (), st2)) :
    (∃ d ∈ st2, decryptData C codec key d.content = .ok (redactPII input)) ∧
    (∃ d ∈ st2, decryptData C codec key d.content = .ok response) := by
  unfold handleSendPersist at hrun
  cases hemb1 : embed (redactPII input) with
  | error e =>
    rw [addDocumentRun_emb_err hemb1] at hrun
    simp at hrun
  | ok v1 =>
    cases hins1 : idbInsert (assembledDoc C codec key id1 iv1 now1 (redactPII input) .chat v1)
        st with
    | none =>
      rw [addDocumentRun_ok_none hemb1 hins1] at hrun
      simp at hrun
    | some st1 =>
      rw [addDocumentRun_ok_some hemb1 hins1] at hrun
      have hrun2 : addDocumentRun C codec key embed id2 iv2 now2 st1 response .chat =
          (.ok (), st2) := hrun
      cases hemb2 : embed response with
      | error e =>
        rw [addDocumentRun_emb_err hemb2] at hrun2
        simp at hrun2
      | ok v2 =>
        cases hins2 : idbInsert (assembledDoc C codec key id2 iv2 now2 response .chat v2)
            st1 with
        | none =>
          rw [addDocumentRun_ok_none hemb2 hins2] at hrun2
          simp at hrun2
        | some st2x =>
          rw [addDocumentRun_ok_some hemb2 hins2] at hrun2
          have hst : st2x = st2 := congrArg Prod.snd hrun2
          subst hst
          constructor
          · refine ⟨assembledDoc C codec key id1 iv1 now1 (redactPII input) .chat v1,
              idbInsert_mono hins2 _ (idbInsert_self_mem hins1), ?_⟩
            exact decryptData_encryptData C codec key iv1 (redactPII input) hiv1
          · refine ⟨assembledDoc C codec key id2 iv2 now2 response .chat v2,
              idbInsert_self_mem hins2, ?_⟩
            exact decryptData_encryptData C codec key iv2 response hiv2

set_option maxRecDepth 16384 in
/-- Witness for the amended C2 at concrete inputs (the response carries an
email address and is stored unredacted). -/
theorem addDocument_plaintext_amended_witness :
    iv12.length = 12 ∧
      handleSendPersist idCipher toyCodec () embedConst "a" "b" iv12 iv12 0 1 []
          "my mail is a@b.com" "write to x@y.org" =
        (.ok (), (handleSendPersist idCipher toyCodec () embedConst "a" "b" iv12 iv12 0 1 []
          "my mail is a@b.com" "write to x@y.org").2) ∧
      ((∃ d ∈ (handleSendPersist idCipher toyCodec () embedConst "a" "b" iv12 iv12 0 1 []
          "my mail is a@b.com" "write to x@y.org").2,
        decryptData idCipher toyCodec () d.content = .ok (redactPII "my mail is a@b.com")) ∧
       (∃ d ∈ (handleSendPersist idCipher toyCodec () embedConst "a" "b" iv12 iv12 0 1 []
          "my mail is a@b.com" "write to x@y.org").2,
        decryptData idCipher toyCodec () d.content = .ok "write to x@y.org")) :=
  ⟨rfl, rfl,
    addDocument_plaintext_amended idCipher toyCodec () embedConst "a" "b" iv12 iv12 0 1 [] _
      "my mail is a@b.com" "write to x@y.org" rfl rfl rfl⟩


/-! ### Claim C3: what order `getAll` returns -/

set_option maxRecDepth 16384 in
/-- C3 counterexample: documents are keyed by random UUIDs and IndexedDB
`getAll` returns records in ascending key order, not insertion order.
Inserting first a document with id `"b"` and then one with id `"a"` makes
`getAll` return the ids as `["a", "b"]`, while the insertion order was
`["b", "a"]`. -/
theorem getAll_insertion_order_cx :
    ((addDocumentRun idCipher toyCodec () embedConst "a" iv12 1
        (addDocumentRun idCipher toyCodec () embedConst "b" iv12 0 [] "one" .chat).2
        "two" .chat).2.map (fun d => d.id)) = ["a", "b"] ∧
      (["a", "b"] : List String) ≠ ["b", "a"] := by
  refine ⟨rfl, ?_⟩
  decide

/-- C3 (amended): `getAll` returns the stored documents in ascending order
of their IndexedDB key (the document id): the sorted-store invariant is
preserved by every add.  Insertion order is preserved exactly when each new
id is larger than every id already stored — then the new document is
appended at the end. -/
theorem getAll_key_order_amended {K E : Type} (C : AeadCipher K) (codec : TextCodec)
    (key : K) (embed : String → Except E (List ℚ)) (newId : String) (iv : List Byte)
    (now : Nat) (st : List VectorDocument) (text : String) (ty : DocType)
    (hsorted : storeSorted st) :
    storeSorted (addDocumentRun C codec key embed newId iv now st text ty).2 ∧
      ∀ v, embed text = .ok v → (∀ d ∈ st, keyLt d.id newId = true) →
        (addDocumentRun C codec key embed newId iv now st text ty).2 =
          st ++ [assembledDoc C codec key newId iv now text ty v] := by
  constructor
  · cases hemb : embed text with
    | error e =>
      rw [addDocumentRun_emb_err hemb]
      exact hsorted
    | ok v =>
      cases hins : idbInsert (assembledDoc C codec key newId iv now text ty v) st with
      | none =>
        rw [addDocumentRun_ok_none hemb hins]
        exact hsorted
      | some st2 =>
        rw [addDocumentRun_ok_some hemb hins]
        exact idbInsert_sorted hsorted hins
  · intro v hemb hlt
    rw [addDocumentRun_ok_some hemb (idbInsert_append (fun x hx => hlt x hx))]

def docA : VectorDocument := assembledDoc idCipher toyCodec () "a" iv12 0 "one" .chat [1, 0]

/-- Witness for the amended C3 on a singleton sorted store. -/
theorem getAll_key_order_amended_witness :
    storeSorted [docA] ∧
      (storeSorted (addDocumentRun idCipher toyCodec () embedConst "b" iv12 1 [docA]
          "two" .chat).2 ∧
        ∀ v, embedConst "two" = .ok v → (∀ d ∈ [docA], keyLt d.id "b" = true) →
          (addDocumentRun idCipher toyCodec () embedConst "b" iv12 1 [docA] "two" .chat).2 =
            [docA] ++ [assembledDoc idCipher toyCodec () "b" iv12 1 "two" .chat v]) :=
  ⟨by simp [storeSorted],
    getAll_key_order_amended idCipher toyCodec () embedConst "b" iv12 1 [docA] "two" .chat
      (by simp [storeSorted])⟩

/-! ### Claim C4: there is no `minScore` threshold in `search` -/

theorem sortInsertDesc_length (x : VectorDocument × ℚ) :
    ∀ l : List (VectorDocument × ℚ), (sortInsertDesc x l).length = l.length + 1
  | [] => rfl
  | y :: ys => by
    unfold sortInsertDesc
    by_cases h : y.2 < x.2
    · rw [if_pos h]
      rfl
    · rw [if_neg h]
      simp only [List.length_cons, sortInsertDesc_length x ys]

theorem sortFold_length :
    ∀ (l acc : List (VectorDocument × ℚ)),
      (l.foldl (fun acc x => sortInsertDesc x acc) acc).length = acc.length + l.length
  | [], acc => rfl
  | x :: xs, acc => by
    show (xs.foldl (fun acc x => sortInsertDesc x acc) (sortInsertDesc x acc)).length =
      acc.length + (x :: xs).length
    rw [sortFold_length xs (sortInsertDesc x acc), sortInsertDesc_length]
    simp only [List.length_cons]
    omega

theorem sortByScoreDesc_length (l : List (VectorDocument × ℚ)) :
    (sortByScoreDesc l).length = l.length := by
  unfold sortByScoreDesc
  rw [sortFold_length]
  simp

theorem decryptOrPlaceholder_score {K : Type} (C : AeadCipher K) (codec : TextCodec)
    (key : K) (p : VectorDocument × ℚ) :
    (decryptOrPlaceholder C codec key p).score = p.2 := by
  unfold decryptOrPlaceholder
  cases decryptData C codec key p.1.content <;> rfl

set_option maxRecDepth 16384 in
def docNeg : VectorDocument :=
  { id := "n1", content := encryptData idCipher toyCodec () iv12 "hello",
    vector := [-1, 0], timestamp := 7, type := .chat }

set_option maxRecDepth 16384 in
/-- C4 counterexample: `search` has no `minScore` parameter and drops
nothing by score.  A stored document whose similarity to the query is `-1`
— below any usable threshold, in particular below the `0.65` the chat
caller later filters by, and below `minScore = 0` — is still returned. -/
theorem search_minScore_cx :
    search idCipher toyCodec () embedConst sqrtStub [docNeg] "q" 3 =
      .ok [{ text := "hello", timestamp := 7, score := -1 }] ∧ (-1 : ℚ) < (0 : ℚ) := by
  have hcos : cosineSimilarity sqrtStub [1, 0] [-1, 0] = -1 := by
    norm_num [cosineSimilarity, magnitude, sumSq, dotProduct, sqrtStub]
  have hdec : decryptData idCipher toyCodec () docNeg.content = .ok "hello" :=
    decryptData_encryptData idCipher toyCodec () iv12 "hello" rfl
  refine ⟨?_, by norm_num⟩
  rw [search_eq_ok (show embedConst "q" = .ok [1, 0] from rfl)]
  simp only [List.length_cons, List.length_nil, List.map_cons, List.map_nil]
  rw [if_neg (by omega)]
  show Except.ok (((sortByScoreDesc
    [(docNeg, cosineSimilarity sqrtStub [1, 0] docNeg.vector)]).take 3).map
      (decryptOrPlaceholder idCipher toyCodec ())) = _
  rw [show docNeg.vector = [-1, 0] from rfl, hcos]
  show Except.ok [decryptOrPlaceholder idCipher toyCodec () (docNeg, -1)] = _
  unfold decryptOrPlaceholder
  rw [hdec]
  rfl

/-- C4 (amended): `search` takes only a query and a limit; it returns
`min limit n` ranked entries whatever their scores — no entry is dropped by
any threshold inside `search` (the chat caller filters `score > 0.65` after
the call, `ChatInterface.tsx` line 100). -/
theorem search_no_threshold {K E : Type} (C : AeadCipher K) (codec : TextCodec) (key : K)
    (embed : String → Except E (List ℚ)) (sqrtf : ℚ → ℚ) (st : List VectorDocument)
    (query : String) (limit : Nat) (qv : List ℚ) (hemb : embed query = .ok qv) :
    ∃ res, search C codec key embed sqrtf st query limit = .ok res ∧
      res.length = min limit st.length ∧
      res.map (fun c => c.score) =
        ((sortByScoreDesc (st.map (fun d => (d, cosineSimilarity sqrtf qv d.vector)))).take
          limit).map (fun p => p.2) := by
  rw [search_eq_ok hemb]
  by_cases hst : st.length = 0
  · rw [if_pos hst]
    have hnil : st = [] := List.length_eq_zero.1 hst
    subst hnil
    refine ⟨[], rfl, by simp, ?_⟩
    show ([] : List ℚ) = ((sortByScoreDesc []).take limit).map _
    simp [sortByScoreDesc]
  · rw [if_neg hst]
    refine ⟨_, rfl, ?_, ?_⟩
    · rw [List.length_map, List.length_take, sortByScoreDesc_length, List.length_map]
    · rw [List.map_map]
      exact List.map_congr_left (fun p _ => decryptOrPlaceholder_score C codec key p)

set_option maxRecDepth 16384 in
/-- Witness for the amended C4: one stored document, nothing dropped. -/
theorem search_no_threshold_witness :
    embedConst "q" = .ok [1, 0] ∧
      ∃ res, search idCipher toyCodec () embedConst sqrtStub [docNeg] "q" 3 = .ok res ∧
        res.length = min 3 ([docNeg] : List VectorDocument).length ∧
        res.map (fun c => c.score) =
          ((sortByScoreDesc (([docNeg] : List VectorDocument).map
            (fun d => (d, cosineSimilarity sqrtStub [1, 0] d.vector)))).take 3).map
              (fun p => p.2) :=
  ⟨rfl, search_no_threshold idCipher toyCodec () embedConst sqrtStub [docNeg] "q" 3 [1, 0] rfl⟩


/-! ### Claim C5: per-entry decrypt failures are isolated -/

/-- C5: once the query embedding succeeds, `search` always returns `.ok`
whatever the stored blobs look like — decryption failures cannot abort the
retrieval.  Each selected entry whose blob fails to decrypt is replaced by
the `"[Encrypted Memory]"` placeholder (keeping its timestamp and score),
and each entry that decrypts is returned with its decrypted text. -/
theorem search_decrypt_fault_isolation {K E : Type} (C : AeadCipher K) (codec : TextCodec)
    (key : K) (embed : String → Except E (List ℚ)) (sqrtf : ℚ → ℚ)
    (st : List VectorDocument) (query : String) (limit : Nat) (qv : List ℚ)
    (hemb : embed query = .ok qv) :
    ∃ res, search C codec key embed sqrtf st query limit = .ok res ∧
      res = ((sortByScoreDesc (st.map
        (fun d => (d, cosineSimilarity sqrtf qv d.vector)))).take limit).map
          (decryptOrPlaceholder C codec key) ∧
      ∀ p ∈ (sortByScoreDesc (st.map
          (fun d => (d, cosineSimilarity sqrtf qv d.vector)))).take limit,
        (∀ err, decryptData C codec key p.1.content = .error err →
          decryptOrPlaceholder C codec key p =
            { text := "[Encrypted Memory]", timestamp := p.1.timestamp, score := p.2 }) ∧
        (∀ t, decryptData C codec key p.1.content = .ok t →
          decryptOrPlaceholder C codec key p =
            { text := t, timestamp := p.1.timestamp, score := p.2 }) := by
  have hmain : ∀ p : VectorDocument × ℚ,
      (∀ err, decryptData C codec key p.1.content = .error err →
        decryptOrPlaceholder C codec key p =
          { text := "[Encrypted Memory]", timestamp := p.1.timestamp, score := p.2 }) ∧
      (∀ t, decryptData C codec key p.1.content = .ok t →
        decryptOrPlaceholder C codec key p =
          { text := t, timestamp := p.1.timestamp, score := p.2 }) := by
    intro p
    constructor
    · intro err herr
      unfold decryptOrPlaceholder
      rw [herr]
    · intro t ht
      unfold decryptOrPlaceholder
      rw [ht]
  rw [search_eq_ok hemb]
  by_cases hst : st.length = 0
  · rw [if_pos hst]
    have hnil : st = [] := List.length_eq_zero.1 hst
    subst hnil
    refine ⟨[], rfl, ?_, fun p _ => hmain p⟩
    show ([] : List MemoryContext) = ((sortByScoreDesc []).take limit).map _
    simp [sortByScoreDesc]
  · rw [if_neg hst]
    exact ⟨_, rfl, rfl, fun p _ => hmain p⟩


set_option maxRecDepth 16384 in
def wdoc (i t : String) (v : List ℚ) (ts : Nat) : VectorDocument :=
  { id := i, content := encryptData idCipher toyCodec () iv12 t, vector := v,
    timestamp := ts, type := .chat }

/-- A record whose ciphertext blob is corrupted (not even valid base64). -/
def corruptDoc : VectorDocument :=
  { id := "c3", content := "###", vector := [0, 1], timestamp := 3, type := .chat }

def fiveStore : List VectorDocument :=
  [wdoc "a1" "t1" [1, 0] 1, wdoc "b2" "t2" [1, 0] 2, corruptDoc,
   wdoc "d4" "t4" [0, 1] 4, wdoc "e5" "t5" [-1, 0] 5]

set_option maxRecDepth 16384 in
/-- Witness for C5, the fault-isolation scenario of the spec: five stored
documents, one with a corrupted blob; `search` returns the other four
decrypted correctly plus one placeholder entry, without raising. -/
theorem search_decrypt_fault_isolation_witness :
    embedConst "q" = .ok [1, 0] ∧
      search idCipher toyCodec () embedConst sqrtStub fiveStore "q" 5 =
        .ok [{ text := "t1", timestamp := 1, score := 1 },
             { text := "t2", timestamp := 2, score := 1 },
             { text := "[Encrypted Memory]", timestamp := 3, score := 0 },
             { text := "t4", timestamp := 4, score := 0 },
             { text := "t5", timestamp := 5, score := -1 }] := by
  refine ⟨rfl, ?_⟩
  obtain ⟨res, h1, h2, _⟩ := search_decrypt_fault_isolation idCipher toyCodec () embedConst
    sqrtStub fiveStore "q" 5 [1, 0] rfl
  rw [h1, h2]
  have hc1 : cosineSimilarity sqrtStub [(1 : ℚ), 0] [1, 0] = 1 := by
    norm_num [cosineSimilarity, magnitude, sumSq, dotProduct, sqrtStub]
  have hc0 : cosineSimilarity sqrtStub [(1 : ℚ), 0] [0, 1] = 0 := by
    norm_num [cosineSimilarity, magnitude, sumSq, dotProduct, sqrtStub]
  have hcm : cosineSimilarity sqrtStub [(1 : ℚ), 0] [-1, 0] = -1 := by
    norm_num [cosineSimilarity, magnitude, sumSq, dotProduct, sqrtStub]
  have ht1 : decryptData idCipher toyCodec () (wdoc "a1" "t1" [1, 0] 1).content = .ok "t1" :=
    decryptData_encryptData idCipher toyCodec () iv12 "t1" rfl
  have ht2 : decryptData idCipher toyCodec () (wdoc "b2" "t2" [1, 0] 2).content = .ok "t2" :=
    decryptData_encryptData idCipher toyCodec () iv12 "t2" rfl
  have ht4 : decryptData idCipher toyCodec () (wdoc "d4" "t4" [0, 1] 4).content = .ok "t4" :=
    decryptData_encryptData idCipher toyCodec () iv12 "t4" rfl
  have ht5 : decryptData idCipher toyCodec () (wdoc "e5" "t5" [-1, 0] 5).content = .ok "t5" :=
    decryptData_encryptData idCipher toyCodec () iv12 "t5" rfl
  have hcor : decryptData idCipher toyCodec () corruptDoc.content = .error .invalidBase64 := rfl
  have hv1 : (wdoc "a1" "t1" [1, 0] 1).vector = [(1 : ℚ), 0] := rfl
  have hv2 : (wdoc "b2" "t2" [1, 0] 2).vector = [(1 : ℚ), 0] := rfl
  have hvc : corruptDoc.vector = [(0 : ℚ), 1] := rfl
  have hv4 : (wdoc "d4" "t4" [0, 1] 4).vector = [(0 : ℚ), 1] := rfl
  have hv5 : (wdoc "e5" "t5" [-1, 0] 5).vector = [(-1 : ℚ), 0] := rfl
  show Except.ok (((sortByScoreDesc (fiveStore.map
    (fun d => (d, cosineSimilarity sqrtStub [1, 0] d.vector)))).take 5).map
      (decryptOrPlaceholder idCipher toyCodec ())) = _
  rw [show fiveStore.map (fun d => (d, cosineSimilarity sqrtStub [1, 0] d.vector)) =
      [(wdoc "a1" "t1" [1, 0] 1, 1), (wdoc "b2" "t2" [1, 0] 2, 1), (corruptDoc, 0),
       (wdoc "d4" "t4" [0, 1] 4, 0), (wdoc "e5" "t5" [-1, 0] 5, -1)] by
    simp only [fiveStore, List.map_cons, List.map_nil, hv1, hv2, hvc, hv4, hv5,
      hc1, hc0, hcm]]
  rw [show sortByScoreDesc
      [(wdoc "a1" "t1" [1, 0] 1, (1 : ℚ)), (wdoc "b2" "t2" [1, 0] 2, 1), (corruptDoc, 0),
       (wdoc "d4" "t4" [0, 1] 4, 0), (wdoc "e5" "t5" [-1, 0] 5, -1)] =
      [(wdoc "a1" "t1" [1, 0] 1, (1 : ℚ)), (wdoc "b2" "t2" [1, 0] 2, 1), (corruptDoc, 0),
       (wdoc "d4" "t4" [0, 1] 4, 0), (wdoc "e5" "t5" [-1, 0] 5, -1)] by
    norm_num [sortByScoreDesc, List.foldl_cons, List.foldl_nil, sortInsertDesc]]
  simp only [List.take_succ_cons, List.take_nil, List.map_cons, List.map_nil]
  unfold decryptOrPlaceholder
  rw [ht1, ht2, ht4, ht5, hcor]
  rfl

end Harmony
